import Mathlib

/-!
Verification of the geometry reconstruction and path-projection engine of
GraphVisualizerV2 (`src/js/PathSegmentsOrdered.js` together with the
`GraphDataStore` methods in `src/js/main.js`, lines 197-205).

The JavaScript module is shallowly embedded over `ℝ`: JS numbers become real
numbers (the data-layer normalizer filters non-finite coordinates, spec §7, so
geometric points are modelled as finite pairs; the single place where a
non-finite *scalar* input matters, `projectIntrinsicToXY`'s `Number.isFinite`
guard, is modelled explicitly by the `JSNum` type), `Math.hypot` becomes
`Real.sqrt` of a sum of squares, `Math.atan2 y x` becomes `Complex.arg ⟨x, y⟩`
(both have range `(-π, π]` and agree on all finite inputs), and the per-edge
cache is modelled away (the build function is pure, and the cache is
write-once per edge).
-/

namespace GraphViz

open scoped Classical

/-- A 2-D point `{x, y}`. -/
structure Point where
  x : ℝ
  y : ℝ

instance : Inhabited Point := ⟨⟨0, 0⟩⟩

/-- Vector subtraction, `vsub(a, b) = a - b` (PathSegmentsOrdered.js line 54). -/
def vsub (a b : Point) : Point := ⟨a.x - b.x, a.y - b.y⟩

/-- Vector length, `vlen(v) = Math.hypot(v.x, v.y)` (line 55). -/
noncomputable def vlen (v : Point) : ℝ := Real.sqrt (v.x ^ 2 + v.y ^ 2)

/-- Unit vector, `vnorm` (lines 56-59): divides by `vlen(v) || 1`, i.e. by `1`
when the length is zero. -/
noncomputable def vnorm (v : Point) : Point :=
  let L := if vlen v = 0 then 1 else vlen v
  ⟨v.x / L, v.y / L⟩

/-- Euclidean distance, `dist(a, b) = Math.hypot(b.x - a.x, b.y - a.y)`
(line 53). -/
noncomputable def dist (a b : Point) : ℝ :=
  Real.sqrt ((b.x - a.x) ^ 2 + (b.y - a.y) ^ 2)

/-- Zero-length tolerance, `opts.eps ?? 1e-6` (line 38); `buildOrderedSegments`
is always called without options from main.js, so the defaults apply. -/
noncomputable def EPS : ℝ := 1e-6

/-- Snap distance, `opts.snap ?? 1e-2` (lines 75, 92, 175). -/
noncomputable def SNAP : ℝ := 1e-2

/-- Tolerance of the `same` predicate, `opts.snap ?? 1e-3` (line 60). -/
noncomputable def SAMETOL : ℝ := 1e-3

/-- The `same` predicate (line 60): points within `1e-3` of each other. -/
noncomputable def same (a b : Point) : Prop := dist a b ≤ SAMETOL

/-- An assembled segment (lines 31-34): either
`{kind:"line", p1, p2, len}` or
`{kind:"arc", p1, p2, center, r, ang1, ang2, sweep, len}`. -/
inductive Segment where
  | line (p1 p2 : Point) (len : ℝ)
  | arc (p1 p2 center : Point) (r ang1 ang2 sweep len : ℝ)

/-- The segment's start point `p1`. -/
def Segment.p1 : Segment → Point
  | .line p1 _ _ => p1
  | .arc p1 _ _ _ _ _ _ _ => p1

/-- The segment's end point `p2`. -/
def Segment.p2 : Segment → Point
  | .line _ p2 _ => p2
  | .arc _ p2 _ _ _ _ _ _ => p2

/-- The segment's stored length `len`. -/
def Segment.len : Segment → ℝ
  | .line _ _ len => len
  | .arc _ _ _ _ _ _ _ len => len

/-- The segment's signed sweep (`0` for a line, which has no sweep field). -/
def Segment.sweep : Segment → ℝ
  | .line _ _ _ => 0
  | .arc _ _ _ _ _ _ sw _ => sw

/-- JS `Math.atan2 y x`, with range `(-π, π]`, as the complex argument of
`x + y·i`. -/
noncomputable def atan2 (y x : ℝ) : ℝ := Complex.arg ⟨x, y⟩

/-- The sweep-normalization loops of lines 121-122 and 188-189
(`while (sweep <= -PI) sweep += 2PI; while (sweep > PI) sweep -= 2PI`); each
loop runs at most once because the input is a difference of two `atan2`
values, hence lies in `(-2π, 2π)`. -/
noncomputable def normSweep (s : ℝ) : ℝ :=
  if s ≤ -Real.pi then s + 2 * Real.pi
  else if Real.pi < s then s - 2 * Real.pi
  else s

/-- JS `Math.sign`. -/
noncomputable def jsign (x : ℝ) : ℝ :=
  if 0 < x then 1 else if x < 0 then -1 else 0

/-- The record produced by `make(center)` (lines 116-130). -/
structure ArcParams where
  center : Point
  r : ℝ
  ang1 : ℝ
  ang2 : ℝ
  sweep : ℝ
  len : ℝ

/-- Line 124: `if (sgn >= 0 && sweep < 0) sweep += 2 * Math.PI`. -/
noncomputable def forcePos (s sgn : ℝ) : ℝ :=
  if 0 ≤ sgn ∧ s < 0 then s + 2 * Real.pi else s

/-- Line 125: `if (sgn < 0 && sweep > 0) sweep -= 2 * Math.PI`. -/
noncomputable def forceNeg (s sgn : ℝ) : ℝ :=
  if sgn < 0 ∧ 0 < s then s - 2 * Real.pi else s

/-- Line 127: `if (Math.abs(sweep) > Math.PI) sweep -= Math.sign(sweep) * 2 * Math.PI`. -/
noncomputable def minorClamp (s : ℝ) : ℝ :=
  if Real.pi < |s| then s - jsign s * (2 * Real.pi) else s

/-- The sweep sign-forcing and minor-arc clamp of lines 123-127 (and,
identically, lines 190-192). -/
noncomputable def forceSweep (s0 sgn : ℝ) : ℝ :=
  minorClamp (forceNeg (forcePos s0 sgn) sgn)

/-- The `make(center)` helper of `arcFromABR` (lines 116-130): start/end angle
from the center, sweep normalized into `(-π, π]`, sign forced to match `sgn`,
then clamped to the minor arc; `len = |sweep| * rAbs`.  The identical code
also appears inline in `pushArcOriented` for arcs with an explicit center
(lines 184-194). -/
noncomputable def makeArc (a b center : Point) (rAbs sgn : ℝ) : ArcParams :=
  let ang1 := atan2 (a.y - center.y) (a.x - center.x)
  let ang2 := atan2 (b.y - center.y) (b.x - center.x)
  let sweep := forceSweep (normSweep (ang2 - ang1)) sgn
  ⟨center, rAbs, ang1, ang1 + sweep, sweep, |sweep| * rAbs⟩

/-- Builds the `{kind:"arc", p1: a, p2: b, ...chosen}` object (lines 142-144). -/
def arcSeg (a b : Point) (p : ArcParams) : Segment :=
  .arc a b p.center p.r p.ang1 p.ang2 p.sweep p.len

/-- `tangentAtStart` (lines 147-158): chord direction for a line; for an arc,
90 degrees left of the start radius direction, flipped for negative sweep. -/
noncomputable def tangentAtStart (seg : Segment) : Point :=
  match seg with
  | .line p1 p2 _ => vnorm (vsub p2 p1)
  | .arc p1 _ center _ _ _ sweep _ =>
    let rv := vnorm (vsub p1 center)
    let t : Point := ⟨-rv.y, rv.x⟩
    if sweep < 0 then ⟨-t.x, -t.y⟩ else t

/-- `arcFromABR(p1, p2, rAbs, sgn, preferTangency)` (lines 97-145), with the
closure variable `lastDir` made an explicit argument.  Returns `none` when
`rAbs` or the chord is degenerate; otherwise builds the two candidate centers
on the perpendicular bisector, evaluates `make` on both (preferred side
first according to `sgn`), and, when tangency preference is active and a
previous direction exists, picks the candidate whose start tangent has the
larger dot product with it. -/
noncomputable def arcFromABR (lastDir : Option Point) (a b : Point)
    (rAbs sgn : ℝ) (preferTangency : Bool) : Option Segment :=
  if ¬ 0 < rAbs then none
  else
    let d := dist a b
    if ¬ 0 < d ∨ rAbs < d / 2 then none
    else
      let mid : Point := ⟨(a.x + b.x) / 2, (a.y + b.y) / 2⟩
      let ux := (b.x - a.x) / d
      let uy := (b.y - a.y) / d
      let px := -uy
      let py := ux
      let h := Real.sqrt (max 0 (rAbs * rAbs - d * d / 4))
      let c1 : Point := ⟨mid.x + h * px, mid.y + h * py⟩
      let c2 : Point := ⟨mid.x - h * px, mid.y - h * py⟩
      let cands := if 0 ≤ sgn then (c1, c2) else (c2, c1)
      let s1 := makeArc a b cands.1 rAbs sgn
      let s2 := makeArc a b cands.2 rAbs sgn
      match preferTangency, lastDir with
      | true, some ld =>
        let t1 := tangentAtStart (arcSeg a b s1)
        let t2 := tangentAtStart (arcSeg a b s2)
        let dot1 := ld.x * t1.x + ld.y * t1.y
        let dot2 := ld.x * t2.x + ld.y * t2.y
        some (if dot2 ≤ dot1 then arcSeg a b s1 else arcSeg a b s2)
      | _, _ => some (arcSeg a b s1)

/-- The mutable assembly state of `buildOrderedSegments` (lines 48-50):
the segment list built so far, the last end point of the chain, and the last
unit tangent direction. -/
structure ChainState where
  segs : List Segment
  lastEnd : Option Point
  lastDir : Option Point

/-- The endpoint swap of lines 67-73 / 170-174: swap the two candidate
endpoints if the second is closer to the chain end by more than `EPS`. -/
noncomputable def orientSwap (e p q : Point) : Point × Point :=
  if dist e q + EPS < dist e p then (q, p) else (p, q)

/-- The snap of lines 75 / 175: replace the chosen start with the chain end
when it is not `same` but within `SNAP`. -/
noncomputable def orientSnap (e : Point) (pq : Point × Point) : Point × Point :=
  if ¬ same e pq.1 ∧ dist e pq.1 < SNAP then (e, pq.2) else pq

/-- The shared endpoint-orientation step of `pushLineOriented` (lines 66-76)
and `pushArcOriented` (lines 169-176): when a chain end exists, swap then
snap. -/
noncomputable def orientPair : Option Point → Point → Point → Point × Point
  | none, p, q => (p, q)
  | some e, p, q => orientSnap e (orientSwap e p q)

/-- `pushLineOriented(p1, p2)` (lines 62-82): orient against the chain end,
drop the segment if its length is `≤ EPS`, otherwise append a line segment
and update `lastEnd`/`lastDir`. -/
noncomputable def pushLineOriented (st : ChainState) (q1 q2 : Point) : ChainState :=
  let ab := orientPair st.lastEnd q1 q2
  let len := dist ab.1 ab.2
  if len ≤ EPS then st
  else ⟨st.segs ++ [.line ab.1 ab.2 len], some ab.2, some (vnorm (vsub ab.2 ab.1))⟩

/-- Replaces the head of a list (JS `P[0] = lastEnd`, line 92). -/
def replaceHead (P : List Point) (e : Point) : List Point :=
  match P with
  | [] => []
  | _ :: t => e :: t

/-- Lines 89-91: reverse the whole polyline when its last point is closer to
the chain end by more than `EPS`. -/
noncomputable def polyReverse (e : Point) (P : List Point) : List Point :=
  if dist e ((P.getLast?).getD ⟨0, 0⟩) + EPS < dist e ((P.head?).getD ⟨0, 0⟩)
  then P.reverse else P

/-- Line 92: snap the polyline's first point onto the chain end under the
same condition as `orientPair`. -/
noncomputable def polySnap (e : Point) (P : List Point) : List Point :=
  if ¬ same e ((P.head?).getD ⟨0, 0⟩) ∧ dist e ((P.head?).getD ⟨0, 0⟩) < SNAP
  then replaceHead P e else P

/-- The whole-polyline orientation step of `pushPolylineOriented`
(lines 88-93): when a chain end exists, reverse then snap. -/
noncomputable def orientPolyline : Option Point → List Point → List Point
  | none, P => P
  | some e, P => polySnap e (polyReverse e P)

/-- `pushPolylineOriented(pts)` (lines 84-95): requires at least two points,
orients the whole polyline against the chain end, then pushes every
consecutive pair through `pushLineOriented`.  The `norm`-filter of non-finite
points is the identity over `ℝ`. -/
noncomputable def pushPolylineOriented (st : ChainState) (pts : List Point) : ChainState :=
  if pts.length < 2 then st
  else
    let P := orientPolyline st.lastEnd pts
    (P.zip P.tail).foldl (fun s pq => pushLineOriented s pq.1 pq.2) st

/-- `pushArcOriented(arcObj)` (lines 160-206): endpoints are the first and
last entries of the primitive's point list (a primitive with no points is
skipped; the `arcObj.p1/p2` field fallback is not used by the ISDP fetcher,
which always supplies a `points` array).  The endpoints are oriented against
the chain end; with an explicit center the angles and sweep are computed by
the code shared with `make` (lines 184-194 are textually identical to
116-130); without one, `arcFromABR` is consulted and on failure the two
oriented endpoints fall back to a straight polyline. -/
noncomputable def pushArcOriented (st : ChainState) (points : List Point)
    (radius : ℝ) (centerOpt : Option Point) : ChainState :=
  match points.head?, points.getLast? with
  | some pA, some pB =>
    let ab := orientPair st.lastEnd pA pB
    let rAbs := |radius|
    let sgn : ℝ := if 0 ≤ radius then 1 else -1
    match centerOpt with
    | some c =>
      let seg := arcSeg ab.1 ab.2 (makeArc ab.1 ab.2 c rAbs sgn)
      ⟨st.segs ++ [seg], some seg.p2, some (tangentAtStart seg)⟩
    | none =>
      match arcFromABR st.lastDir ab.1 ab.2 rAbs sgn true with
      | some seg => ⟨st.segs ++ [seg], some seg.p2, some (tangentAtStart seg)⟩
      | none => pushPolylineOriented st [ab.1, ab.2]
  | _, _ => st

/-- One raw element of an edge, after the id-resolution of lines 209-236:
a raw reference resolves (in order) to a line, a transition, or an arc; a
reference with inline points but no resolvable id is treated as a polyline;
anything else is skipped.  Lines, transitions and inline fallbacks all go
through `pushPolylineOriented`, so they share one constructor. -/
inductive Prim where
  | poly (points : List Point)
  | arcP (points : List Point) (radius : ℝ) (center : Option Point)
  | skip

/-- Dispatch of one raw element in the main loop (lines 209-236). -/
noncomputable def stepPrim (st : ChainState) (p : Prim) : ChainState :=
  match p with
  | .poly pts => pushPolylineOriented st pts
  | .arcP pts radius center => pushArcOriented st pts radius center
  | .skip => st

/-- The global-reversal action on one segment (lines 245-254): swap `p1`/`p2`;
for an arc additionally swap `ang1`/`ang2` and negate the sweep. -/
def revSeg : Segment → Segment
  | .line p1 p2 len => .line p2 p1 len
  | .arc p1 p2 c r a1 a2 sw len => .arc p2 p1 c r a2 a1 (-sw) len

/-- The packed result `{length, segments}` (lines 27-30). -/
structure Packed where
  length : ℝ
  segments : List Segment

/-- The global A-to-B orientation check of lines 238-257: if both edge
endpoints are known, the chain is nonempty, and the chain's first point is
closer to node B than to node A by more than `EPS`, reverse the whole chain
(JS reverses the array in place and then rewrites each segment, i.e.
reverse-then-map). -/
noncomputable def finalSegs (ends : Option (Point × Point))
    (segs : List Segment) : List Segment :=
  match ends, segs with
  | some AB, s0 :: _ =>
    if dist s0.p1 AB.2 + EPS < dist s0.p1 AB.1
    then (segs.reverse).map revSeg
    else segs
  | _, _ => segs

/-- `buildOrderedSegments(store, edgeId)` (lines 37-265): fold the raw
elements in order, apply the global orientation check, and sum the segment
lengths.  The per-edge cache (lines 39-41, 263) is modelled by purity. -/
noncomputable def buildOrderedSegments (ends : Option (Point × Point))
    (prims : List Prim) : Packed :=
  let segs := finalSegs ends (prims.foldl stepPrim ⟨[], none, none⟩).segs
  ⟨(segs.map Segment.len).sum, segs⟩

/-- The point of a segment at local fraction `t` (lines 276-281): linear
interpolation on a line, angular interpolation and polar evaluation on an
arc. -/
noncomputable def segPointAt (s : Segment) (t : ℝ) : Point :=
  match s with
  | .line p1 p2 _ => ⟨p1.x + (p2.x - p1.x) * t, p1.y + (p2.y - p1.y) * t⟩
  | .arc _ _ c r a1 _ sw _ =>
    ⟨c.x + r * Real.cos (a1 + sw * t), c.y + r * Real.sin (a1 + sw * t)⟩

/-- The terminal point of the last segment (lines 286-291): for an arc the
point at `ang2`, for a line its `p2`. -/
noncomputable def terminalPoint (s : Segment) : Point :=
  match s with
  | .line _ p2 _ => p2
  | .arc _ _ c r _ a2 _ _ => ⟨c.x + r * Real.cos a2, c.y + r * Real.sin a2⟩

/-- The accumulating segment walk of `projectIK_Ordered` (lines 271-284):
stop at the first segment whose cumulative end length reaches the target `L`,
and evaluate it at local fraction `(L - acc) / len` (or `0` for a zero-length
segment); `none` when the loop exhausts the list. -/
noncomputable def walkSegs : List Segment → ℝ → ℝ → Option Point
  | [], _, _ => none
  | s :: rest, L, acc =>
    let next := acc + s.len
    if L ≤ next then
      some (segPointAt s (if 0 < s.len then (L - acc) / s.len else 0))
    else walkSegs rest L next

/-- The part of `projectIK_Ordered` after the clamp: the walk, the terminal
fallback (lines 286-291), and the `{x:0, y:0}` fallback for an empty segment
list (line 292). -/
noncomputable def walkOrEnd (packed : Packed) (L : ℝ) : Point :=
  match walkSegs packed.segments L 0 with
  | some p => p
  | none =>
    match packed.segments.getLast? with
    | some last => terminalPoint last
    | none => ⟨0, 0⟩

/-- `projectIK_Ordered(store, edgeId, ik)` (lines 268-293): clamp
`ik` to `[0, packed.length]` (line 270; the JS `+ik || 0` and `|| 0`
coercions are the identity on finite numbers), then walk.  The rebuild via
the cache is the pure `packed` argument here. -/
noncomputable def projectIK_Ordered (packed : Packed) (ik : ℝ) : Point :=
  walkOrEnd packed (max 0 (min ik packed.length))

/-- The dual interpretation of the intrinsic coordinate
(main.js line 203): a value in `[0, 1]` is a fraction of the total length,
anything else is meters. -/
noncomputable def interpIK (v total : ℝ) : ℝ :=
  if 0 ≤ v ∧ v ≤ 1 then v * total else v

/-- A JS number as passed to `projectIntrinsicToXY`: either finite or one of
the non-finite values rejected by `Number.isFinite` (main.js line 202).
`Number(x)` coercion of non-numeric inputs that do not parse also yields
`NaN`, covered by the `nan` constructor. -/
inductive JSNum where
  | num (x : ℝ)
  | nan
  | posInf
  | negInf

/-- JS `Number.isFinite` on an already-coerced number. -/
def JSNum.isFinite : JSNum → Bool
  | .num _ => true
  | _ => false

/-- `GraphDataStore.projectIntrinsicToXY(edgeId, ikOrMeters)` (main.js lines
197-205): build (or fetch from cache) the packed path; `null` when the total
length is not positive; `null` when the input does not coerce to a finite
number; otherwise interpret the input via `interpIK` and delegate to
`projectIK_Ordered`. -/
noncomputable def projectIntrinsicToXY (ends : Option (Point × Point))
    (prims : List Prim) (ikOrMeters : JSNum) : Option Point :=
  let packed := buildOrderedSegments ends prims
  if ¬ 0 < packed.length then none
  else
    match ikOrMeters with
    | .num v => some (projectIK_Ordered packed (interpIK v packed.length))
    | _ => none

/-- The deduplicating `push` of `sampleSegmentsToPolyline` (line 299): append
only when the list is empty or the new point differs from the last one. -/
noncomputable def dedupPush (pts : List Point) (p : Point) : List Point :=
  if pts.getLast? = some p then pts else pts ++ [p]

/-- The arc subdivision count of line 305:
`n = Math.max(2, Math.ceil(|sweep| * r / Math.max(1e-6, maxChord)) + 1)`. -/
noncomputable def arcSampleCount (sw r maxChord : ℝ) : ℤ :=
  max 2 (⌈|sw| * r / max 1e-6 maxChord⌉ + 1)

/-- The points one segment contributes to the sampled polyline before
deduplication (lines 300-311): both endpoints for a line; `n` evenly
angle-spaced points for an arc. -/
noncomputable def sampleRaw (maxChord : ℝ) (s : Segment) : List Point :=
  match s with
  | .line p1 p2 _ => [p1, p2]
  | .arc _ _ c r a1 _ sw _ =>
    let n := (arcSampleCount sw r maxChord).toNat
    (List.range n).map fun i : ℕ =>
      ⟨c.x + r * Real.cos (a1 + sw * ((i : ℝ) / ((n : ℝ) - 1))),
       c.y + r * Real.sin (a1 + sw * ((i : ℝ) / ((n : ℝ) - 1)))⟩

/-- `sampleSegmentsToPolyline(packed, maxChord)` (lines 296-314): every
segment's sample points in path order, pushed through the deduplicating
`push`. -/
noncomputable def sampleSegmentsToPolyline (packed : Packed) (maxChord : ℝ) : List Point :=
  ((packed.segments.map (sampleRaw maxChord)).flatten).foldl dedupPush []

/-- An arc segment whose stored endpoints actually lie on its circle at its
stored angles (always true of arcs resolved by `arcFromABR`, but not enforced
for arcs carrying an inconsistent explicit center from the input data).
Trivial for lines. -/
noncomputable def arcConsistent : Segment → Prop
  | .line _ _ _ => True
  | .arc p1 p2 c r a1 _ sw _ =>
    p1 = ⟨c.x + r * Real.cos a1, c.y + r * Real.sin a1⟩ ∧
    p2 = ⟨c.x + r * Real.cos (a1 + sw), c.y + r * Real.sin (a1 + sw)⟩

/-! ## Basic facts about distances and the accessors -/

theorem dist_def (a b : Point) :
    dist a b = Real.sqrt ((b.x - a.x) ^ 2 + (b.y - a.y) ^ 2) := rfl

theorem dist_nonneg' (a b : Point) : 0 ≤ dist a b := Real.sqrt_nonneg _

theorem dist_self' (a : Point) : dist a a = 0 := by
  simp [dist_def]

theorem dist_comm' (a b : Point) : dist a b = dist b a := by
  rw [dist_def, dist_def]
  ring_nf

/-- Evaluates a concrete distance from a squared identity. -/
theorem distEval {x1 y1 x2 y2 d : ℝ} (hd : 0 ≤ d)
    (h : (x2 - x1) ^ 2 + (y2 - y1) ^ 2 = d ^ 2) :
    dist ⟨x1, y1⟩ ⟨x2, y2⟩ = d := by
  rw [dist_def]
  simp only
  rw [h, Real.sqrt_sq hd]

theorem EPS_pos : (0 : ℝ) < EPS := by norm_num [EPS]

theorem SNAP_pos : (0 : ℝ) < SNAP := by norm_num [SNAP]

theorem SAMETOL_pos : (0 : ℝ) < SAMETOL := by norm_num [SAMETOL]

theorem revSeg_p1 (s : Segment) : (revSeg s).p1 = s.p2 := by
  cases s <;> rfl

theorem revSeg_p2 (s : Segment) : (revSeg s).p2 = s.p1 := by
  cases s <;> rfl

theorem revSeg_len (s : Segment) : (revSeg s).len = s.len := by
  cases s <;> rfl

/-! ## The oriented-append step: where the chosen start point can lie

After `orientPair` (the shared logic of `pushLineOriented` lines 66-76 and
`pushArcOriented` lines 169-176) the chosen start point `a` is either within
the `same` tolerance (`1e-3`) of the chain end (possibly snapped exactly onto
it), or at least the snap distance (`1e-2`) away: no surviving gap lies
strictly between the two tolerances. -/

theorem orientPair_gap (e q1 q2 : Point) :
    dist e (orientPair (some e) q1 q2).1 ≤ SAMETOL ∨
      SNAP ≤ dist e (orientPair (some e) q1 q2).1 := by
  show dist e (orientSnap e (orientSwap e q1 q2)).1 ≤ SAMETOL ∨
    SNAP ≤ dist e (orientSnap e (orientSwap e q1 q2)).1
  unfold orientSnap
  by_cases h : ¬ same e (orientSwap e q1 q2).1 ∧ dist e (orientSwap e q1 q2).1 < SNAP
  · rw [if_pos h]
    left
    show dist e e ≤ SAMETOL
    rw [dist_self']
    exact le_of_lt SAMETOL_pos
  · rw [if_neg h]
    push_neg at h
    by_cases h1 : same e (orientSwap e q1 q2).1
    · left
      exact h1
    · right
      exact h h1

/-! ## The chaining invariant of the assembler

Two facts are established by one induction over the assembly fold:

* every adjacent pair of assembled segments is separated by a gap that is
  either at most `SAMETOL = 1e-3` (the `same` tolerance; snapped gaps are
  exactly `0`) or at least `SNAP = 1e-2` (a genuinely disconnected input,
  which the assembler keeps as-is), and
* the chain end `lastEnd` always equals the last segment's `p2`.
-/

/-- The gap between two consecutive segments is small (within the `same`
tolerance) or large (at least the snap distance). -/
noncomputable def gapOK (s t : Segment) : Prop :=
  dist s.p2 t.p1 ≤ SAMETOL ∨ SNAP ≤ dist s.p2 t.p1

/-- The assembly-fold invariant: adjacent gaps are dichotomous and `lastEnd`
tracks the last segment's end point. -/
noncomputable def chainInv (st : ChainState) : Prop :=
  List.Chain' gapOK st.segs ∧
    ((st.lastEnd = none ∧ st.segs = []) ∨
      (∃ s, st.segs.getLast? = some s ∧ st.lastEnd = some s.p2))

theorem foldlPreserves {σ α : Type _} (P : σ → Prop) (f : σ → α → σ)
    (h : ∀ s a, P s → P (f s a)) :
    ∀ (l : List α) (s : σ), P s → P (l.foldl f s) := by
  intro l
  induction l with
  | nil => intro s hs; exact hs
  | cons x xs ih => intro s hs; exact ih _ (h s x hs)

theorem append_chainInv (st : ChainState) (seg : Segment)
    (h : chainInv st) (hp1 : st.lastEnd = none ∨ st.lastEnd = some seg.p1 ∨
      (∃ e, st.lastEnd = some e ∧ (dist e seg.p1 ≤ SAMETOL ∨ SNAP ≤ dist e seg.p1))) :
    chainInv ⟨st.segs ++ [seg], some seg.p2, some (tangentAtStart seg)⟩ := by
  obtain ⟨hchain, hrest⟩ := h
  constructor
  · rw [List.chain'_append]
    refine ⟨hchain, List.chain'_singleton _, ?_⟩
    intro x hx y hy
    simp only [List.head?_cons, Option.mem_def, Option.some.injEq] at hy
    subst hy
    rcases hrest with ⟨_, hnil⟩ | ⟨s, hlast, hle⟩
    · rw [hnil] at hx
      simp at hx
    · rw [hlast] at hx
      simp only [Option.mem_def, Option.some.injEq] at hx
      subst hx
      rcases hp1 with hn | he | ⟨e, he, hgap⟩
      · rw [hn] at hle
        exact absurd hle (by simp)
      · rw [he] at hle
        have hx2 : s.p2 = seg.p1 := by
          have h' := hle.symm
          simp only [Option.some.injEq] at h'
          exact h'
        unfold gapOK
        left
        rw [hx2, dist_self']
        exact le_of_lt SAMETOL_pos
      · rw [he] at hle
        have hx2 : s.p2 = e := by
          have h' := hle.symm
          simp only [Option.some.injEq] at h'
          exact h'
        unfold gapOK
        rw [hx2]
        exact hgap
  · right
    exact ⟨seg, List.getLast?_concat _, rfl⟩

theorem pushLine_inv (st : ChainState) (q1 q2 : Point) (h : chainInv st) :
    chainInv (pushLineOriented st q1 q2) := by
  unfold pushLineOriented
  set ab := orientPair st.lastEnd q1 q2 with hab
  by_cases hlen : dist ab.1 ab.2 ≤ EPS
  · simp only [if_pos hlen]
    exact h
  · simp only [if_neg hlen]
    have := append_chainInv st (.line ab.1 ab.2 (dist ab.1 ab.2)) h ?_
    · simpa [tangentAtStart, Segment.p2] using this
    · cases he : st.lastEnd with
      | none => exact Or.inl rfl
      | some e =>
        right; right
        refine ⟨e, rfl, ?_⟩
        have := orientPair_gap e q1 q2
        rw [← he] at this
        rw [← hab] at this
        exact this

theorem pushPoly_inv (st : ChainState) (pts : List Point) (h : chainInv st) :
    chainInv (pushPolylineOriented st pts) := by
  unfold pushPolylineOriented
  by_cases hl : pts.length < 2
  · simp only [if_pos hl]
    exact h
  · simp only [if_neg hl]
    exact foldlPreserves chainInv _ (fun s pq hs => pushLine_inv s pq.1 pq.2 hs) _ st h

theorem arcSeg_ite_p1 (c : Prop) [Decidable c] (a b : Point) (x y : ArcParams) :
    (if c then arcSeg a b x else arcSeg a b y).p1 = a := by
  by_cases h : c
  · rw [if_pos h]; rfl
  · rw [if_neg h]; rfl

theorem arcSeg_ite_p2 (c : Prop) [Decidable c] (a b : Point) (x y : ArcParams) :
    (if c then arcSeg a b x else arcSeg a b y).p2 = b := by
  by_cases h : c
  · rw [if_pos h]; rfl
  · rw [if_neg h]; rfl

theorem arcFromABR_eq_some {ld : Option Point} {a b : Point} {rAbs sgn : ℝ}
    {pt : Bool} {seg : Segment}
    (h : arcFromABR ld a b rAbs sgn pt = some seg) :
    seg.p1 = a ∧ seg.p2 = b := by
  unfold arcFromABR at h
  by_cases h1 : ¬ 0 < rAbs
  · rw [if_pos h1] at h
    exact absurd h (by simp)
  · rw [if_neg h1] at h
    by_cases h2 : ¬ 0 < dist a b ∨ rAbs < dist a b / 2
    · rw [if_pos h2] at h
      exact absurd h (by simp)
    · rw [if_neg h2] at h
      simp only at h
      rcases pt with _ | _ <;> rcases ld with _ | ld <;>
        simp only [Option.some.injEq] at h <;> rw [← h]
      · exact ⟨rfl, rfl⟩
      · exact ⟨rfl, rfl⟩
      · exact ⟨rfl, rfl⟩
      · exact ⟨arcSeg_ite_p1 _ _ _ _ _, arcSeg_ite_p2 _ _ _ _ _⟩

theorem pushArc_inv (st : ChainState) (pts : List Point) (radius : ℝ)
    (centerOpt : Option Point) (h : chainInv st) :
    chainInv (pushArcOriented st pts radius centerOpt) := by
  unfold pushArcOriented
  cases hA : pts.head? with
  | none => exact h
  | some pA =>
    cases hB : pts.getLast? with
    | none => exact h
    | some pB =>
      simp only
      set ab := orientPair st.lastEnd pA pB with hab
      have hgap : st.lastEnd = none ∨
          (∃ e, st.lastEnd = some e ∧ (dist e ab.1 ≤ SAMETOL ∨ SNAP ≤ dist e ab.1)) := by
        cases he : st.lastEnd with
        | none => exact Or.inl rfl
        | some e =>
          right
          refine ⟨e, rfl, ?_⟩
          have := orientPair_gap e pA pB
          rw [← he, ← hab] at this
          exact this
      cases centerOpt with
      | some c =>
        refine append_chainInv st _ h ?_
        rcases hgap with hn | ⟨e, he, hg⟩
        · exact Or.inl hn
        · exact Or.inr (Or.inr ⟨e, he, by simpa [arcSeg, Segment.p1] using hg⟩)
      | none =>
        cases hres : arcFromABR st.lastDir ab.1 ab.2 |radius|
            (if 0 ≤ radius then 1 else -1) true with
        | none =>
          simp only
          exact pushPoly_inv st [ab.1, ab.2] h
        | some seg =>
          simp only
          obtain ⟨hp1, _⟩ := arcFromABR_eq_some hres
          refine append_chainInv st seg h ?_
          rcases hgap with hn | ⟨e, he, hg⟩
          · exact Or.inl hn
          · exact Or.inr (Or.inr ⟨e, he, by rwa [hp1]⟩)

theorem stepPrim_inv (st : ChainState) (p : Prim) (h : chainInv st) :
    chainInv (stepPrim st p) := by
  cases p with
  | poly pts => exact pushPoly_inv st pts h
  | arcP pts radius center => exact pushArc_inv st pts radius center h
  | skip => exact h

theorem gapOK_rev {a b : Segment} (h : gapOK a b) : gapOK (revSeg b) (revSeg a) := by
  unfold gapOK at h ⊢
  rw [revSeg_p2, revSeg_p1, dist_comm']
  exact h

theorem chain_rev_map {l : List Segment} (h : List.Chain' gapOK l) :
    List.Chain' gapOK ((l.reverse).map revSeg) := by
  rw [List.chain'_map, List.chain'_reverse]
  exact h.imp fun a b hab => gapOK_rev hab

theorem build_segments (ends : Option (Point × Point)) (prims : List Prim) :
    (buildOrderedSegments ends prims).segments =
      finalSegs ends (prims.foldl stepPrim ⟨[], none, none⟩).segs := rfl

theorem build_length (ends : Option (Point × Point)) (prims : List Prim) :
    (buildOrderedSegments ends prims).length =
      (((buildOrderedSegments ends prims).segments).map Segment.len).sum := rfl

theorem fold_chainInv (prims : List Prim) :
    chainInv (prims.foldl stepPrim ⟨[], none, none⟩) :=
  foldlPreserves chainInv stepPrim stepPrim_inv prims _
    ⟨List.chain'_nil, Or.inl ⟨rfl, rfl⟩⟩

theorem finalSegs_chain (ends : Option (Point × Point)) (segs : List Segment)
    (h : List.Chain' gapOK segs) : List.Chain' gapOK (finalSegs ends segs) := by
  unfold finalSegs
  split
  · split
    · exact chain_rev_map h
    · exact h
  · exact h

theorem build_chain (ends : Option (Point × Point)) (prims : List Prim) :
    List.Chain' gapOK (buildOrderedSegments ends prims).segments := by
  rw [build_segments]
  exact finalSegs_chain ends _ (fold_chainInv prims).1

/-! ## Which segments can have (near-)zero length

`pushLineOriented` drops a line whose length is `≤ EPS` (line 78), so every
line segment in an assembled path has length `> 1e-6`; `pushArcOriented` has
no such guard, so arc segments of any length (including exactly `0`) are
kept. -/

/-- Line segments are longer than `EPS`; arcs are unconstrained. -/
noncomputable def lineLenOK : Segment → Prop
  | .line _ _ l => EPS < l
  | .arc _ _ _ _ _ _ _ _ => True

theorem lineLenOK_rev (s : Segment) (h : lineLenOK s) : lineLenOK (revSeg s) := by
  cases s with
  | line p1 p2 len => exact h
  | arc p1 p2 c r a1 a2 sw len => trivial

theorem pushLine_lines (st : ChainState) (q1 q2 : Point)
    (h : ∀ s ∈ st.segs, lineLenOK s) :
    ∀ s ∈ (pushLineOriented st q1 q2).segs, lineLenOK s := by
  unfold pushLineOriented
  set ab := orientPair st.lastEnd q1 q2
  by_cases hlen : dist ab.1 ab.2 ≤ EPS
  · simp only [if_pos hlen]
    exact h
  · simp only [if_neg hlen]
    intro s hs
    rcases List.mem_append.mp hs with hmem | hnew
    · exact h s hmem
    · simp only [List.mem_singleton] at hnew
      subst hnew
      exact lt_of_not_le hlen

theorem pushPoly_lines (st : ChainState) (pts : List Point)
    (h : ∀ s ∈ st.segs, lineLenOK s) :
    ∀ s ∈ (pushPolylineOriented st pts).segs, lineLenOK s := by
  unfold pushPolylineOriented
  by_cases hl : pts.length < 2
  · simp only [if_pos hl]
    exact h
  · simp only [if_neg hl]
    exact foldlPreserves (fun st => ∀ s ∈ st.segs, lineLenOK s) _
      (fun (s : ChainState) (pq : Point × Point) hs =>
        pushLine_lines s pq.1 pq.2 hs) _ st h

theorem arcSeg_ite_lineLenOK (c : Prop) [Decidable c] (a b : Point)
    (x y : ArcParams) :
    lineLenOK (if c then arcSeg a b x else arcSeg a b y) := by
  by_cases h : c
  · rw [if_pos h]; trivial
  · rw [if_neg h]; trivial

theorem arcFromABR_isArc {ld : Option Point} {a b : Point} {rAbs sgn : ℝ}
    {pt : Bool} {seg : Segment}
    (h : arcFromABR ld a b rAbs sgn pt = some seg) : lineLenOK seg := by
  unfold arcFromABR at h
  by_cases h1 : ¬ 0 < rAbs
  · rw [if_pos h1] at h
    exact absurd h (by simp)
  · rw [if_neg h1] at h
    by_cases h2 : ¬ 0 < dist a b ∨ rAbs < dist a b / 2
    · rw [if_pos h2] at h
      exact absurd h (by simp)
    · rw [if_neg h2] at h
      simp only at h
      rcases pt with _ | _ <;> rcases ld with _ | ld <;>
        simp only [Option.some.injEq] at h <;> rw [← h]
      · trivial
      · trivial
      · trivial
      · exact arcSeg_ite_lineLenOK _ _ _ _ _

theorem pushArc_lines (st : ChainState) (pts : List Point) (radius : ℝ)
    (centerOpt : Option Point) (h : ∀ s ∈ st.segs, lineLenOK s) :
    ∀ s ∈ (pushArcOriented st pts radius centerOpt).segs, lineLenOK s := by
  unfold pushArcOriented
  cases hA : pts.head? with
  | none => exact h
  | some pA =>
    cases hB : pts.getLast? with
    | none => exact h
    | some pB =>
      simp only
      set ab := orientPair st.lastEnd pA pB
      cases centerOpt with
      | some c =>
        intro s hs
        rcases List.mem_append.mp hs with hmem | hnew
        · exact h s hmem
        · simp only [List.mem_singleton] at hnew
          subst hnew
          trivial
      | none =>
        cases hres : arcFromABR st.lastDir ab.1 ab.2 |radius|
            (if 0 ≤ radius then 1 else -1) true with
        | none =>
          simp only
          exact pushPoly_lines st [ab.1, ab.2] h
        | some seg =>
          simp only
          intro s hs
          rcases List.mem_append.mp hs with hmem | hnew
          · exact h s hmem
          · simp only [List.mem_singleton] at hnew
            subst hnew
            exact arcFromABR_isArc hres

theorem stepPrim_lines (st : ChainState) (p : Prim)
    (h : ∀ s ∈ st.segs, lineLenOK s) :
    ∀ s ∈ (stepPrim st p).segs, lineLenOK s := by
  cases p with
  | poly pts => exact pushPoly_lines st pts h
  | arcP pts radius center => exact pushArc_lines st pts radius center h
  | skip => exact h

theorem build_lines (ends : Option (Point × Point)) (prims : List Prim) :
    ∀ s ∈ (buildOrderedSegments ends prims).segments, lineLenOK s := by
  rw [build_segments]
  have hfold : ∀ s ∈ (prims.foldl stepPrim ⟨[], none, none⟩).segs, lineLenOK s :=
    foldlPreserves (fun st => ∀ s ∈ st.segs, lineLenOK s) stepPrim
      stepPrim_lines prims _ (by simp)
  unfold finalSegs
  split
  · split
    · intro s hs
      rcases List.mem_map.mp hs with ⟨t, ht, hst⟩
      rw [← hst]
      exact lineLenOK_rev t (hfold t (List.mem_reverse.mp ht))
    · exact hfold
  · exact hfold

/-! ## What the sweep pipeline actually computes

The normalized sweep `s0` lies in `(-π, π]` (a difference of two `atan2`
values, renormalized).  The sign-forcing step (lines 124-125) and the
minor-arc clamp (line 127) then cancel each other out: whenever the forcing
adds or subtracts `2π`, the clamp undoes it, so the final sweep equals `s0` —
except in the single boundary case `s0 = π` with `sgn < 0`, where the result
is `-π`.  In particular `|sweep| ≤ π` always holds, but the sweep's sign is
*not* forced to match `sgn`. -/

theorem atan2_mem (y x : ℝ) : -Real.pi < atan2 y x ∧ atan2 y x ≤ Real.pi :=
  ⟨Complex.neg_pi_lt_arg _, Complex.arg_le_pi _⟩

theorem normSweep_mem (s : ℝ) (h1 : -(2 * Real.pi) < s) (h2 : s < 2 * Real.pi) :
    -Real.pi < normSweep s ∧ normSweep s ≤ Real.pi := by
  have hpi := Real.pi_pos
  unfold normSweep
  split_ifs with ha hb
  · constructor <;> linarith
  · constructor <;> linarith
  · push_neg at ha hb
    exact ⟨ha, hb⟩

theorem forceSweep_spec (s0 sgn : ℝ) (h1 : -Real.pi < s0) (h2 : s0 ≤ Real.pi) :
    |forceSweep s0 sgn| ≤ Real.pi ∧
      (forceSweep s0 sgn = s0 ∨
        (s0 = Real.pi ∧ sgn < 0 ∧ forceSweep s0 sgn = -Real.pi)) := by
  have hpi := Real.pi_pos
  unfold forceSweep forcePos forceNeg minorClamp
  by_cases hA : 0 ≤ sgn ∧ s0 < 0
  · rw [if_pos hA]
    have hne : ¬ (sgn < 0 ∧ 0 < s0 + 2 * Real.pi) := by
      rintro ⟨hneg, -⟩
      linarith [hA.1]
    rw [if_neg hne]
    have habs : Real.pi < |s0 + 2 * Real.pi| := by
      rw [abs_of_pos (by linarith : (0:ℝ) < s0 + 2 * Real.pi)]
      linarith
    rw [if_pos habs]
    have hj : jsign (s0 + 2 * Real.pi) = 1 := by
      unfold jsign
      rw [if_pos (by linarith [hA.2])]
    rw [hj]
    constructor
    · rw [show s0 + 2 * Real.pi - 1 * (2 * Real.pi) = s0 by ring, abs_le]
      constructor <;> linarith
    · left
      ring
  · rw [if_neg hA]
    by_cases hB : sgn < 0 ∧ 0 < s0
    · rw [if_pos hB]
      by_cases hC : s0 < Real.pi
      · have habs : Real.pi < |s0 - 2 * Real.pi| := by
          rw [abs_of_neg (by linarith : s0 - 2 * Real.pi < 0)]
          linarith
        rw [if_pos habs]
        have hj : jsign (s0 - 2 * Real.pi) = -1 := by
          unfold jsign
          rw [if_neg (by linarith), if_pos (by linarith)]
        rw [hj]
        constructor
        · rw [show s0 - 2 * Real.pi - -1 * (2 * Real.pi) = s0 by ring, abs_le]
          constructor <;> linarith
        · left
          ring
      · have hs0 : s0 = Real.pi := le_antisymm h2 (not_lt.mp hC)
        have habs : ¬ Real.pi < |s0 - 2 * Real.pi| := by
          rw [hs0, show Real.pi - 2 * Real.pi = -Real.pi by ring, abs_neg,
            abs_of_pos hpi]
          exact lt_irrefl _
        rw [if_neg habs]
        constructor
        · rw [hs0, show Real.pi - 2 * Real.pi = -Real.pi by ring, abs_neg,
            abs_of_pos hpi]
        · right
          refine ⟨hs0, hB.1, ?_⟩
          rw [hs0]
          ring
    · rw [if_neg hB]
      have habs : ¬ Real.pi < |s0| := by
        rw [not_lt, abs_le]
        exact ⟨by linarith, h2⟩
      rw [if_neg habs]
      exact ⟨by rw [abs_le]; exact ⟨by linarith, h2⟩, Or.inl rfl⟩

theorem makeArc_sweep_def (a b c : Point) (rAbs sgn : ℝ) :
    (makeArc a b c rAbs sgn).sweep =
      forceSweep (normSweep (atan2 (b.y - c.y) (b.x - c.x) -
        atan2 (a.y - c.y) (a.x - c.x))) sgn := rfl

/-- The characterization of the sweep produced by `make` (lines 116-130):
it always has `|sweep| ≤ π`, and it equals the `(-π, π]`-normalization of the
raw angle difference except that an exact value of `π` is negated when `sgn`
is negative; the sign-forcing of lines 124-125 is otherwise cancelled by the
minor-arc clamp of line 127. -/
theorem makeArc_sweep_spec (a b c : Point) (rAbs sgn : ℝ) :
    |(makeArc a b c rAbs sgn).sweep| ≤ Real.pi ∧
      ((makeArc a b c rAbs sgn).sweep =
          normSweep (atan2 (b.y - c.y) (b.x - c.x) - atan2 (a.y - c.y) (a.x - c.x)) ∨
        (normSweep (atan2 (b.y - c.y) (b.x - c.x) - atan2 (a.y - c.y) (a.x - c.x)) =
            Real.pi ∧ sgn < 0 ∧ (makeArc a b c rAbs sgn).sweep = -Real.pi)) := by
  have h1 := atan2_mem (a.y - c.y) (a.x - c.x)
  have h2 := atan2_mem (b.y - c.y) (b.x - c.x)
  have hd1 : -(2 * Real.pi) <
      atan2 (b.y - c.y) (b.x - c.x) - atan2 (a.y - c.y) (a.x - c.x) := by
    linarith [h1.2, h2.1]
  have hd2 : atan2 (b.y - c.y) (b.x - c.x) - atan2 (a.y - c.y) (a.x - c.x) <
      2 * Real.pi := by
    have := Real.pi_pos
    linarith [h1.1, h2.2]
  have hmem := normSweep_mem _ hd1 hd2
  rw [makeArc_sweep_def]
  exact forceSweep_spec _ sgn hmem.1 hmem.2

theorem arcSeg_ite_sweep_le (c : Prop) [Decidable c] (a b : Point)
    (x y : ArcParams) (hx : |x.sweep| ≤ Real.pi) (hy : |y.sweep| ≤ Real.pi) :
    |(if c then arcSeg a b x else arcSeg a b y).sweep| ≤ Real.pi := by
  by_cases h : c
  · rw [if_pos h]
    exact hx
  · rw [if_neg h]
    exact hy

/-- For every segment returned by `arcFromABR`, the sweep is a minor arc:
`|sweep| ≤ π`. -/
theorem arcFromABR_sweep_le {ld : Option Point} {a b : Point} {rAbs sgn : ℝ}
    {pt : Bool} {seg : Segment}
    (h : arcFromABR ld a b rAbs sgn pt = some seg) :
    |seg.sweep| ≤ Real.pi := by
  unfold arcFromABR at h
  by_cases h1 : ¬ 0 < rAbs
  · rw [if_pos h1] at h
    exact absurd h (by simp)
  · rw [if_neg h1] at h
    by_cases h2 : ¬ 0 < dist a b ∨ rAbs < dist a b / 2
    · rw [if_pos h2] at h
      exact absurd h (by simp)
    · rw [if_neg h2] at h
      simp only at h
      rcases pt with _ | _ <;> rcases ld with _ | ld <;>
        simp only [Option.some.injEq] at h <;> rw [← h]
      · exact (makeArc_sweep_spec _ _ _ _ _).1
      · exact (makeArc_sweep_spec _ _ _ _ _).1
      · exact (makeArc_sweep_spec _ _ _ _ _).1
      · exact arcSeg_ite_sweep_le _ _ _ _ _
          (makeArc_sweep_spec _ _ _ _ _).1 (makeArc_sweep_spec _ _ _ _ _).1

/-! ## The projection walk at the path boundaries -/

theorem Point.ext' (a b : Point) (hx : a.x = b.x) (hy : a.y = b.y) : a = b := by
  cases a
  cases b
  simp_all

theorem segPointAt_zero (s : Segment) (h : arcConsistent s) :
    segPointAt s 0 = s.p1 := by
  cases s with
  | line p1 p2 len =>
    apply Point.ext' <;> simp [segPointAt, Segment.p1]
  | arc p1 p2 c r a1 a2 sw len =>
    unfold arcConsistent at h
    rw [show Segment.p1 (.arc p1 p2 c r a1 a2 sw len) = p1 from rfl, h.1]
    apply Point.ext' <;> simp [segPointAt]

theorem segPointAt_one (s : Segment) (h : arcConsistent s) :
    segPointAt s 1 = s.p2 := by
  cases s with
  | line p1 p2 len =>
    apply Point.ext' <;> simp [segPointAt, Segment.p2]
  | arc p1 p2 c r a1 a2 sw len =>
    unfold arcConsistent at h
    rw [show Segment.p2 (.arc p1 p2 c r a1 a2 sw len) = p2 from rfl, h.2]
    apply Point.ext' <;> simp [segPointAt]

theorem walkSegs_zero (s : Segment) (rest : List Segment)
    (hlen : 0 ≤ s.len) (hcons : arcConsistent s) :
    walkSegs (s :: rest) 0 0 = some s.p1 := by
  unfold walkSegs
  rw [if_pos (by linarith : (0:ℝ) ≤ 0 + s.len)]
  have ht : (if 0 < s.len then ((0:ℝ) - 0) / s.len else 0) = 0 := by
    split_ifs <;> simp
  rw [ht, segPointAt_zero s hcons]

theorem walkSegs_total (segs : List Segment) (sl : Segment)
    (hlast : segs.getLast? = some sl)
    (hlen : ∀ s ∈ segs, 0 < s.len) (hcons : ∀ s ∈ segs, arcConsistent s) :
    ∀ acc : ℝ, walkSegs segs (acc + (segs.map Segment.len).sum) acc = some sl.p2 := by
  induction segs with
  | nil => simp at hlast
  | cons s rest ih =>
    intro acc
    cases rest with
    | nil =>
      simp only [List.getLast?_singleton, Option.some.injEq] at hlast
      unfold walkSegs
      simp only [List.map_cons, List.map_nil, List.sum_cons, List.sum_nil, add_zero]
      rw [if_pos le_rfl]
      have hpos : 0 < s.len := hlen s (List.mem_singleton_self s)
      have ht : (if 0 < s.len then (acc + s.len - acc) / s.len else 0) = 1 := by
        rw [if_pos hpos]
        field_simp
      rw [ht, segPointAt_one s (hcons s (List.mem_singleton_self s)), hlast]
    | cons s2 rest2 =>
      have htail : 0 < ((s2 :: rest2).map Segment.len).sum := by
        apply List.sum_pos
        · intro x hx
          rcases List.mem_map.mp hx with ⟨t, ht, hxe⟩
          rw [← hxe]
          exact hlen t (List.mem_cons_of_mem s ht)
        · simp
      unfold walkSegs
      have hsum : (((s :: s2 :: rest2).map Segment.len).sum : ℝ) =
          s.len + ((s2 :: rest2).map Segment.len).sum := by
        simp [List.map_cons, List.sum_cons]
      rw [hsum]
      rw [if_neg (by linarith)]
      have := ih (by rwa [List.getLast?_cons_cons] at hlast)
        (fun t ht => hlen t (List.mem_cons_of_mem s ht))
        (fun t ht => hcons t (List.mem_cons_of_mem s ht)) (acc + s.len)
      rw [show acc + (s.len + ((s2 :: rest2).map Segment.len).sum) =
        acc + s.len + ((s2 :: rest2).map Segment.len).sum by ring]
      exact this

theorem sum_len_nonneg (segs : List Segment)
    (hlen : ∀ s ∈ segs, 0 < s.len) : 0 ≤ (segs.map Segment.len).sum := by
  apply List.sum_nonneg
  intro x hx
  rcases List.mem_map.mp hx with ⟨t, ht, hxe⟩
  rw [← hxe]
  exact le_of_lt (hlen t ht)

/-- `projectIK_Ordered` at offset `0` on a path of positive-length,
arc-consistent segments returns the first segment's start point. -/
theorem projectIK_zero (packed : Packed)
    (hwf : packed.length = ((packed.segments.map Segment.len).sum))
    (hlen : ∀ s ∈ packed.segments, 0 < s.len)
    (hcons : ∀ s ∈ packed.segments, arcConsistent s)
    (s0 : Segment) (h0 : packed.segments.head? = some s0) :
    projectIK_Ordered packed 0 = s0.p1 := by
  have hL : 0 ≤ packed.length := by
    rw [hwf]
    exact sum_len_nonneg _ hlen
  unfold projectIK_Ordered
  rw [min_eq_left hL, max_self]
  cases hs : packed.segments with
  | nil => rw [hs] at h0; simp at h0
  | cons s rest =>
    rw [hs] at h0
    simp only [List.head?_cons, Option.some.injEq] at h0
    unfold walkOrEnd
    rw [hs, walkSegs_zero s rest
      (le_of_lt (hlen s (by rw [hs]; exact List.mem_cons_self _ _)))
      (hcons s (by rw [hs]; exact List.mem_cons_self _ _))]
    show s.p1 = s0.p1
    rw [h0]

/-- `projectIK_Ordered` at the total length on a path of positive-length,
arc-consistent segments returns the last segment's end point. -/
theorem projectIK_total (packed : Packed)
    (hwf : packed.length = ((packed.segments.map Segment.len).sum))
    (hlen : ∀ s ∈ packed.segments, 0 < s.len)
    (hcons : ∀ s ∈ packed.segments, arcConsistent s)
    (sl : Segment) (hl : packed.segments.getLast? = some sl) :
    projectIK_Ordered packed packed.length = sl.p2 := by
  have hL : 0 ≤ packed.length := by
    rw [hwf]
    exact sum_len_nonneg _ hlen
  unfold projectIK_Ordered
  rw [min_self, max_eq_right hL]
  unfold walkOrEnd
  have := walkSegs_total packed.segments sl hl hlen hcons 0
  rw [zero_add] at this
  rw [← hwf] at this
  rw [this]

/-! ## Sampler facts: deduplication, endpoint coverage, arc sample count -/

theorem dedupPush_getLast (acc : List Point) (p : Point) :
    (dedupPush acc p).getLast? = some p := by
  unfold dedupPush
  split_ifs with h
  · exact h
  · simp

theorem dedupPush_ne_nil (acc : List Point) (p : Point) : dedupPush acc p ≠ [] := by
  intro hc
  have := dedupPush_getLast acc p
  rw [hc] at this
  simp at this

theorem dedupPush_chain (acc : List Point) (p : Point)
    (h : List.Chain' (· ≠ ·) acc) : List.Chain' (· ≠ ·) (dedupPush acc p) := by
  unfold dedupPush
  split_ifs with hc
  · exact h
  · rw [List.chain'_append]
    refine ⟨h, List.chain'_singleton _, ?_⟩
    intro x hx y hy
    simp only [List.head?_cons, Option.mem_def, Option.some.injEq] at hy
    subst hy
    intro hxy
    apply hc
    rw [← hxy]
    exact hx

theorem foldl_dedup_chain (l acc : List Point)
    (h : List.Chain' (· ≠ ·) acc) :
    List.Chain' (· ≠ ·) (l.foldl dedupPush acc) :=
  foldlPreserves (List.Chain' (· ≠ ·)) dedupPush dedupPush_chain l acc h

theorem foldl_dedup_getLast : ∀ (l : List Point), l ≠ [] →
    ∀ acc, (l.foldl dedupPush acc).getLast? = l.getLast? := by
  intro l
  induction l with
  | nil => intro h; exact absurd rfl h
  | cons x xs ih =>
    intro _ acc
    rw [List.foldl_cons]
    cases xs with
    | nil =>
      simp only [List.foldl_nil, List.getLast?_singleton]
      exact dedupPush_getLast acc x
    | cons y ys =>
      rw [List.getLast?_cons_cons]
      exact ih (by simp) _

theorem dedupPush_head (acc : List Point) (p : Point) (hacc : acc ≠ []) :
    (dedupPush acc p).head? = acc.head? := by
  unfold dedupPush
  split_ifs with h
  · rfl
  · exact List.head?_append_of_ne_nil _ hacc

theorem foldl_dedup_head (l : List Point) :
    ∀ acc, acc ≠ [] → (l.foldl dedupPush acc).head? = acc.head? := by
  induction l with
  | nil => intro acc _; rfl
  | cons x xs ih =>
    intro acc hacc
    rw [List.foldl_cons, ih _ (dedupPush_ne_nil acc x)]
    exact dedupPush_head acc x hacc

theorem foldl_dedup_head_nil (x : Point) (xs : List Point) :
    ((x :: xs).foldl dedupPush []).head? = some x := by
  rw [List.foldl_cons]
  have h1 : dedupPush [] x = [x] := by
    unfold dedupPush
    rw [if_neg (by simp)]
    rfl
  rw [h1, foldl_dedup_head xs [x] (by simp)]
  rfl

theorem arcSampleCount_ge_two (sw r mc : ℝ) : 2 ≤ arcSampleCount sw r mc :=
  le_max_left _ _

theorem arcSampleCount_toNat_ge_two (sw r mc : ℝ) :
    2 ≤ (arcSampleCount sw r mc).toNat := by
  have h := Int.toNat_le_toNat (arcSampleCount_ge_two sw r mc)
  simpa using h

/-- Under arc consistency, the first sampled point of a segment is its start
point. -/
theorem sampleRaw_head (mc : ℝ) (s : Segment) (hcons : arcConsistent s) :
    (sampleRaw mc s).head? = some s.p1 := by
  cases s with
  | line p1 p2 len => rfl
  | arc p1 p2 c r a1 a2 sw len =>
    unfold arcConsistent at hcons
    obtain ⟨k, hk⟩ : ∃ k, (arcSampleCount sw r mc).toNat = k + 1 := by
      have := arcSampleCount_toNat_ge_two sw r mc
      exact ⟨(arcSampleCount sw r mc).toNat - 1, by omega⟩
    simp only [sampleRaw]
    rw [hk, List.range_succ_eq_map, List.map_cons, List.head?_cons]
    simp only [Nat.cast_zero, zero_div, mul_zero, add_zero]
    rw [show Segment.p1 (.arc p1 p2 c r a1 a2 sw len) = p1 from rfl, hcons.1]

theorem sampleRaw_ne_nil (mc : ℝ) (s : Segment) : sampleRaw mc s ≠ [] := by
  cases s with
  | line p1 p2 len => simp [sampleRaw]
  | arc p1 p2 c r a1 a2 sw len =>
    have h2 := arcSampleCount_toNat_ge_two sw r mc
    simp only [sampleRaw, ne_eq, List.map_eq_nil_iff, List.range_eq_nil]
    omega

/-- Under arc consistency, the last sampled point of a segment is its end
point. -/
theorem sampleRaw_getLast (mc : ℝ) (s : Segment) (hcons : arcConsistent s) :
    (sampleRaw mc s).getLast? = some s.p2 := by
  cases s with
  | line p1 p2 len => rfl
  | arc p1 p2 c r a1 a2 sw len =>
    unfold arcConsistent at hcons
    obtain ⟨k, hk⟩ : ∃ k, (arcSampleCount sw r mc).toNat = k + 1 := by
      have := arcSampleCount_toNat_ge_two sw r mc
      exact ⟨(arcSampleCount sw r mc).toNat - 1, by omega⟩
    have hk1 : 1 ≤ k := by
      have := arcSampleCount_toNat_ge_two sw r mc
      omega
    simp only [sampleRaw]
    rw [hk, List.range_succ, List.map_append, List.map_cons, List.map_nil,
      List.getLast?_append_of_ne_nil _ (by simp), List.getLast?_singleton]
    have hkr : ((k : ℝ)) ≠ 0 := Nat.cast_ne_zero.mpr (by omega)
    have ht : ((k : ℝ)) / (((k + 1 : ℕ) : ℝ) - 1) = 1 := by
      push_cast
      rw [add_sub_cancel_right]
      exact div_self hkr
    rw [ht, mul_one,
      show Segment.p2 (.arc p1 p2 c r a1 a2 sw len) = p2 from rfl, hcons.2]

theorem foldl_dedup_head_some (l : List Point) (x : Point)
    (hx : l.head? = some x) : ((l.foldl dedupPush []).head? = some x) := by
  cases l with
  | nil => simp at hx
  | cons y ys =>
    simp only [List.head?_cons, Option.some.injEq] at hx
    rw [foldl_dedup_head_nil y ys, hx]

theorem flatten_sample_ne_nil (mc : ℝ) (s : Segment) (rest : List Segment) :
    ((s :: rest).map (sampleRaw mc)).flatten ≠ [] := by
  rw [List.map_cons, List.flatten_cons]
  intro hc
  rcases List.append_eq_nil.mp hc with ⟨h1, _⟩
  exact sampleRaw_ne_nil mc s h1

/-- The sampled polyline of a nonempty, arc-consistent path starts at the
first segment's start point. -/
theorem sample_head (packed : Packed) (mc : ℝ) (s0 : Segment)
    (h0 : packed.segments.head? = some s0)
    (hcons : ∀ s ∈ packed.segments, arcConsistent s) :
    (sampleSegmentsToPolyline packed mc).head? = some s0.p1 := by
  cases hs : packed.segments with
  | nil =>
    rw [hs] at h0
    simp at h0
  | cons s rest =>
    rw [hs] at h0
    simp only [List.head?_cons, Option.some.injEq] at h0
    unfold sampleSegmentsToPolyline
    rw [hs, List.map_cons, List.flatten_cons]
    apply foldl_dedup_head_some
    rw [List.head?_append_of_ne_nil _ (sampleRaw_ne_nil mc s)]
    rw [sampleRaw_head mc s (hcons s (by rw [hs]; exact List.mem_cons_self _ _)), h0]

theorem flatten_sample_getLast (mc : ℝ) :
    ∀ (segs : List Segment) (sl : Segment), segs.getLast? = some sl →
      (∀ s ∈ segs, arcConsistent s) →
      ((segs.map (sampleRaw mc)).flatten).getLast? = some sl.p2 := by
  intro segs
  induction segs with
  | nil => intro sl h _; simp at h
  | cons s rest ih =>
    intro sl hlast hcons
    cases rest with
    | nil =>
      simp only [List.getLast?_singleton, Option.some.injEq] at hlast
      rw [List.map_cons, List.map_nil, List.flatten_cons, List.flatten_nil,
        List.append_nil, sampleRaw_getLast mc s (hcons s (List.mem_singleton_self s)),
        hlast]
    | cons s2 rest2 =>
      rw [List.map_cons, List.flatten_cons,
        List.getLast?_append_of_ne_nil _ (flatten_sample_ne_nil mc s2 rest2)]
      exact ih sl (by rwa [List.getLast?_cons_cons] at hlast)
        (fun t ht => hcons t (List.mem_cons_of_mem s ht))

/-- The sampled polyline of a nonempty, arc-consistent path ends at the last
segment's end point. -/
theorem sample_getLast (packed : Packed) (mc : ℝ) (sl : Segment)
    (hl : packed.segments.getLast? = some sl)
    (hcons : ∀ s ∈ packed.segments, arcConsistent s) :
    (sampleSegmentsToPolyline packed mc).getLast? = some sl.p2 := by
  cases hs : packed.segments with
  | nil =>
    rw [hs] at hl
    simp at hl
  | cons s rest =>
    unfold sampleSegmentsToPolyline
    rw [hs, foldl_dedup_getLast _ (flatten_sample_ne_nil mc s rest)]
    exact flatten_sample_getLast mc (s :: rest) sl (by rw [← hs]; exact hl)
      (fun t ht => hcons t (by rw [hs]; exact ht))

/-- The sampled polyline never contains two equal consecutive points. -/
theorem sample_nodup (packed : Packed) (mc : ℝ) :
    List.Chain' (· ≠ ·) (sampleSegmentsToPolyline packed mc) :=
  foldl_dedup_chain _ _ List.chain'_nil

/-! ## Evaluation helpers for concrete inputs

These lemmas expose one reduction step of the assembler in terms of
hypotheses (distances, angles, orientation outcomes) that can be discharged
by `norm_num` on concrete rational coordinates. -/

theorem orientPair_none (p q : Point) : orientPair none p q = (p, q) := rfl

theorem orientPair_cont (e p q : Point) (he : dist e p = 0) :
    orientPair (some e) p q = (p, q) := by
  show orientSnap e (orientSwap e p q) = (p, q)
  have h1 : ¬ dist e q + EPS < dist e p := by
    rw [he]
    push_neg
    have := dist_nonneg' e q
    have := EPS_pos
    linarith
  have hs : orientSwap e p q = (p, q) := by
    unfold orientSwap
    rw [if_neg h1]
  rw [hs]
  unfold orientSnap
  have h2 : ¬ (¬ same e (p, q).1 ∧ dist e (p, q).1 < SNAP) := by
    rintro ⟨hns, -⟩
    exact hns (by rw [same, he]; exact le_of_lt SAMETOL_pos)
  rw [if_neg h2]

theorem orientPair_far (e p q : Point)
    (h1 : ¬ dist e q + EPS < dist e p)
    (h2 : SNAP ≤ dist e p) :
    orientPair (some e) p q = (p, q) := by
  show orientSnap e (orientSwap e p q) = (p, q)
  have hs : orientSwap e p q = (p, q) := by
    unfold orientSwap
    rw [if_neg h1]
  rw [hs]
  unfold orientSnap
  have h3 : ¬ (¬ same e (p, q).1 ∧ dist e (p, q).1 < SNAP) := by
    rintro ⟨-, hlt⟩
    exact absurd hlt (not_lt.mpr h2)
  rw [if_neg h3]

theorem pushLine_eval (st : ChainState) (p q a b : Point)
    (hab : orientPair st.lastEnd p q = (a, b))
    (d : ℝ) (hd : dist a b = d) (hgt : EPS < d) (u : Point)
    (hu : vnorm (vsub b a) = u) :
    pushLineOriented st p q =
      ⟨st.segs ++ [.line a b d], some b, some u⟩ := by
  unfold pushLineOriented
  rw [hab]
  simp only
  rw [hd, if_neg (not_le.mpr hgt), hu]

theorem pushArc_center_eval (st : ChainState) (pts : List Point) (radius : ℝ)
    (c : Point) (pA pB : Point) (hA : pts.head? = some pA)
    (hB : pts.getLast? = some pB) (a b : Point)
    (hab : orientPair st.lastEnd pA pB = (a, b))
    (p : ArcParams)
    (hp : makeArc a b c |radius| (if 0 ≤ radius then 1 else -1) = p) :
    pushArcOriented st pts radius (some c) =
      ⟨st.segs ++ [arcSeg a b p], some (arcSeg a b p).p2,
        some (tangentAtStart (arcSeg a b p))⟩ := by
  unfold pushArcOriented
  rw [hA, hB]
  simp only
  rw [hab]
  simp only
  rw [hp]

theorem vlen_eval (x y L : ℝ) (hL : 0 ≤ L) (h : x ^ 2 + y ^ 2 = L ^ 2) :
    vlen ⟨x, y⟩ = L := by
  unfold vlen
  simp only
  rw [h, Real.sqrt_sq hL]

theorem vnorm_eval (v : Point) (L : ℝ) (hL : vlen v = L) (h0 : L ≠ 0) :
    vnorm v = ⟨v.x / L, v.y / L⟩ := by
  unfold vnorm
  rw [hL, if_neg h0]

theorem atan2_eval (y x : ℝ) (z : ℂ) (hz : (⟨x, y⟩ : ℂ) = z) :
    atan2 y x = z.arg := by
  unfold atan2
  rw [hz]

theorem normSweep_id (s : ℝ) (h1 : -Real.pi < s) (h2 : s ≤ Real.pi) :
    normSweep s = s := by
  unfold normSweep
  rw [if_neg (by linarith), if_neg (by linarith)]

theorem normSweep_big (s : ℝ) (h : Real.pi < s) : normSweep s = s - 2 * Real.pi := by
  have hpi := Real.pi_pos
  unfold normSweep
  rw [if_neg (by linarith), if_pos h]

theorem forceSweep_eq_self (s0 sgn : ℝ) (h1 : -Real.pi < s0) (h2 : s0 < Real.pi) :
    forceSweep s0 sgn = s0 := by
  rcases (forceSweep_spec s0 sgn h1 (le_of_lt h2)).2 with h | ⟨hpi, -, -⟩
  · exact h
  · exact absurd hpi (ne_of_lt h2)

theorem makeArc_eval (a b c : Point) (rAbs sgn A1 A2 sw : ℝ)
    (h1 : atan2 (a.y - c.y) (a.x - c.x) = A1)
    (h2 : atan2 (b.y - c.y) (b.x - c.x) = A2)
    (hsw : forceSweep (normSweep (A2 - A1)) sgn = sw) :
    makeArc a b c rAbs sgn = ⟨c, rAbs, A1, A1 + sw, sw, |sw| * rAbs⟩ := by
  unfold makeArc
  rw [h1, h2]
  show (⟨c, rAbs, A1, A1 + forceSweep (normSweep (A2 - A1)) sgn,
    forceSweep (normSweep (A2 - A1)) sgn,
    |forceSweep (normSweep (A2 - A1)) sgn| * rAbs⟩ : ArcParams) = _
  rw [hsw]

theorem tangentAtStart_arc (a b : Point) (p : ArcParams) (rv : Point)
    (hrv : vnorm (vsub a p.center) = rv) (hsw : ¬ p.sweep < 0) :
    tangentAtStart (arcSeg a b p) = ⟨-rv.y, rv.x⟩ := by
  unfold tangentAtStart arcSeg
  simp only
  rw [hrv, if_neg hsw]

theorem tangentAtStart_arc_neg (a b : Point) (p : ArcParams) (rv : Point)
    (hrv : vnorm (vsub a p.center) = rv) (hsw : p.sweep < 0) :
    tangentAtStart (arcSeg a b p) = ⟨-(-rv.y), -rv.x⟩ := by
  unfold tangentAtStart arcSeg
  simp only
  rw [hrv, if_pos hsw]

theorem vnorm_eval' (x y L : ℝ) (hL : 0 < L) (h : x ^ 2 + y ^ 2 = L ^ 2) :
    vnorm ⟨x, y⟩ = ⟨x / L, y / L⟩ :=
  vnorm_eval _ L (vlen_eval x y L (le_of_lt hL) h) (ne_of_gt hL)

theorem finalSegs_keep (A B : Point) (s0 : Segment) (rest : List Segment)
    (h : ¬ dist s0.p1 B + EPS < dist s0.p1 A) :
    finalSegs (some (A, B)) (s0 :: rest) = s0 :: rest := by
  show (if dist s0.p1 B + EPS < dist s0.p1 A
    then ((s0 :: rest).reverse).map revSeg else s0 :: rest) = s0 :: rest
  rw [if_neg h]

theorem finalSegs_rev (A B : Point) (s0 : Segment) (rest : List Segment)
    (h : dist s0.p1 B + EPS < dist s0.p1 A) :
    finalSegs (some (A, B)) (s0 :: rest) = ((s0 :: rest).reverse).map revSeg := by
  show (if dist s0.p1 B + EPS < dist s0.p1 A
    then ((s0 :: rest).reverse).map revSeg else s0 :: rest) =
      ((s0 :: rest).reverse).map revSeg
  rw [if_pos h]

theorem build_eval (ends : Option (Point × Point)) (prims : List Prim)
    (st : ChainState) (hfold : prims.foldl stepPrim ⟨[], none, none⟩ = st)
    (segs : List Segment) (hfs : finalSegs ends st.segs = segs) (L : ℝ)
    (hL : (segs.map Segment.len).sum = L) :
    buildOrderedSegments ends prims = ⟨L, segs⟩ := by
  show (⟨((finalSegs ends (prims.foldl stepPrim ⟨[], none, none⟩).segs).map
    Segment.len).sum,
    finalSegs ends (prims.foldl stepPrim ⟨[], none, none⟩).segs⟩ : Packed) = ⟨L, segs⟩
  rw [hfold, hfs, hL]

/-! ## A concrete single-line edge

One polyline primitive from `(0,0)` to `(3,4)`, with the edge endpoints at
the same two points; it assembles to a single line segment of length `5`.
Used to instantiate the hypothesis-bearing theorems at a concrete input. -/

noncomputable def exLinePrims : List Prim := [.poly [⟨0, 0⟩, ⟨3, 4⟩]]

noncomputable def exLineEnds : Option (Point × Point) := some (⟨0, 0⟩, ⟨3, 4⟩)

theorem exLine_fold :
    exLinePrims.foldl stepPrim ⟨[], none, none⟩ =
      ⟨[.line ⟨0, 0⟩ ⟨3, 4⟩ 5], some ⟨3, 4⟩, some ⟨3 / 5, 4 / 5⟩⟩ := by
  have hd : dist (⟨0, 0⟩ : Point) ⟨3, 4⟩ = 5 := distEval (by norm_num) (by norm_num)
  have hu : vnorm (vsub ⟨3, 4⟩ ⟨0, 0⟩) = (⟨3 / 5, 4 / 5⟩ : Point) := by
    rw [show vsub ⟨3, 4⟩ ⟨0, 0⟩ = (⟨3 - 0, 4 - 0⟩ : Point) from rfl,
      vnorm_eval' (3 - 0) (4 - 0) 5 (by norm_num) (by norm_num)]
    apply Point.ext' <;> norm_num
  show pushLineOriented ⟨[], none, none⟩ ⟨0, 0⟩ ⟨3, 4⟩ = _
  rw [pushLine_eval ⟨[], none, none⟩ ⟨0, 0⟩ ⟨3, 4⟩ ⟨0, 0⟩ ⟨3, 4⟩
    (orientPair_none _ _) 5 hd (by norm_num [EPS]) _ hu]
  rfl

theorem exLine_build :
    buildOrderedSegments exLineEnds exLinePrims =
      ⟨5, [.line ⟨0, 0⟩ ⟨3, 4⟩ 5]⟩ := by
  have hd : dist (⟨0, 0⟩ : Point) ⟨3, 4⟩ = 5 := distEval (by norm_num) (by norm_num)
  apply build_eval exLineEnds exLinePrims _ exLine_fold
  · show finalSegs exLineEnds [.line ⟨0, 0⟩ ⟨3, 4⟩ 5] = _
    apply finalSegs_keep
    rw [show Segment.p1 (.line ⟨0, 0⟩ ⟨3, 4⟩ 5) = ⟨0, 0⟩ from rfl, hd, dist_self']
    norm_num [EPS]
  · simp only [List.map_cons, List.map_nil, List.sum_cons, List.sum_nil, add_zero]
    rfl

theorem orientPolyline_keep (e : Point) (P : List Point)
    (h1 : ¬ dist e ((P.getLast?).getD ⟨0, 0⟩) + EPS < dist e ((P.head?).getD ⟨0, 0⟩))
    (h2 : same e ((P.head?).getD ⟨0, 0⟩) ∨ SNAP ≤ dist e ((P.head?).getD ⟨0, 0⟩)) :
    orientPolyline (some e) P = P := by
  show polySnap e (polyReverse e P) = P
  rw [show polyReverse e P = P from by unfold polyReverse; rw [if_neg h1]]
  unfold polySnap
  rw [if_neg (by
    rintro ⟨hns, hlt⟩
    rcases h2 with hs | hfar
    · exact hns hs
    · exact absurd hlt (not_lt.mpr hfar))]

theorem pushPoly_two (st : ChainState) (p q : Point)
    (hP : orientPolyline st.lastEnd [p, q] = [p, q]) :
    pushPolylineOriented st [p, q] = pushLineOriented st p q := by
  show ((orientPolyline st.lastEnd [p, q]).zip
    (orientPolyline st.lastEnd [p, q]).tail).foldl
      (fun s pq => pushLineOriented s pq.1 pq.2) st = _
  rw [hP]
  rfl

/-! ## A concrete edge whose chain is globally reversed

One polyline from `(9,0)` to `(8,0)` on an edge with node A at `(0,0)` and
node B at `(10,0)`: the chain's first point `(9,0)` is closer to B, so the
assembled chain is reversed and runs `(8,0) → (9,0)`.  Its first segment's
start `(8,0)` is still closer to B than to A, refuting the spec's claimed
orientation consequence. -/

noncomputable def revCePrims : List Prim := [.poly [⟨9, 0⟩, ⟨8, 0⟩]]

noncomputable def revCeEnds : Option (Point × Point) := some (⟨0, 0⟩, ⟨10, 0⟩)

theorem revCe_fold :
    revCePrims.foldl stepPrim ⟨[], none, none⟩ =
      ⟨[.line ⟨9, 0⟩ ⟨8, 0⟩ 1], some ⟨8, 0⟩, some ⟨-1, 0⟩⟩ := by
  have hd : dist (⟨9, 0⟩ : Point) ⟨8, 0⟩ = 1 := distEval (by norm_num) (by norm_num)
  have hu : vnorm (vsub ⟨8, 0⟩ ⟨9, 0⟩) = (⟨-1, 0⟩ : Point) := by
    rw [show vsub ⟨8, 0⟩ ⟨9, 0⟩ = (⟨8 - 9, 0 - 0⟩ : Point) from rfl,
      vnorm_eval' (8 - 9) (0 - 0) 1 (by norm_num) (by norm_num)]
    apply Point.ext' <;> norm_num
  show pushLineOriented ⟨[], none, none⟩ ⟨9, 0⟩ ⟨8, 0⟩ = _
  rw [pushLine_eval ⟨[], none, none⟩ ⟨9, 0⟩ ⟨8, 0⟩ ⟨9, 0⟩ ⟨8, 0⟩
    (orientPair_none _ _) 1 hd (by norm_num [EPS]) _ hu]
  rfl

theorem revCe_build :
    buildOrderedSegments revCeEnds revCePrims =
      ⟨1, [.line ⟨8, 0⟩ ⟨9, 0⟩ 1]⟩ := by
  have hdB : dist (⟨9, 0⟩ : Point) ⟨10, 0⟩ = 1 := distEval (by norm_num) (by norm_num)
  have hdA : dist (⟨9, 0⟩ : Point) ⟨0, 0⟩ = 9 := distEval (by norm_num) (by norm_num)
  apply build_eval revCeEnds revCePrims _ revCe_fold
  · show finalSegs (some (⟨0, 0⟩, ⟨10, 0⟩)) [.line ⟨9, 0⟩ ⟨8, 0⟩ 1] = _
    rw [finalSegs_rev ⟨0, 0⟩ ⟨10, 0⟩ _ _ (by
      rw [show Segment.p1 (.line ⟨9, 0⟩ ⟨8, 0⟩ 1) = ⟨9, 0⟩ from rfl, hdB, hdA]
      norm_num [EPS])]
    rfl
  · simp only [List.map_cons, List.map_nil, List.sum_cons, List.sum_nil, add_zero]
    rfl

/-! ## A concrete edge with two far-apart line primitives

Two polylines, `(0,0)→(1,0)` and `(100,0)→(101,0)`: the second cannot attach
to the chain end within the snap tolerance, so the assembler keeps the `99`
unit gap, refuting the claimed unconditional `1e-2` continuity bound. -/

noncomputable def gapCePrims : List Prim :=
  [.poly [⟨0, 0⟩, ⟨1, 0⟩], .poly [⟨100, 0⟩, ⟨101, 0⟩]]

noncomputable def gapCeEnds : Option (Point × Point) := some (⟨0, 0⟩, ⟨101, 0⟩)

theorem gapCe_fold :
    gapCePrims.foldl stepPrim ⟨[], none, none⟩ =
      ⟨[.line ⟨0, 0⟩ ⟨1, 0⟩ 1, .line ⟨100, 0⟩ ⟨101, 0⟩ 1],
        some ⟨101, 0⟩, some ⟨1, 0⟩⟩ := by
  have hd1 : dist (⟨0, 0⟩ : Point) ⟨1, 0⟩ = 1 := distEval (by norm_num) (by norm_num)
  have hu1 : vnorm (vsub ⟨1, 0⟩ ⟨0, 0⟩) = (⟨1, 0⟩ : Point) := by
    rw [show vsub ⟨1, 0⟩ ⟨0, 0⟩ = (⟨1 - 0, 0 - 0⟩ : Point) from rfl,
      vnorm_eval' (1 - 0) (0 - 0) 1 (by norm_num) (by norm_num)]
    apply Point.ext' <;> norm_num
  have hstep1 : pushLineOriented ⟨[], none, none⟩ ⟨0, 0⟩ ⟨1, 0⟩ =
      ⟨[.line ⟨0, 0⟩ ⟨1, 0⟩ 1], some ⟨1, 0⟩, some ⟨1, 0⟩⟩ := by
    rw [pushLine_eval ⟨[], none, none⟩ ⟨0, 0⟩ ⟨1, 0⟩ ⟨0, 0⟩ ⟨1, 0⟩
      (orientPair_none _ _) 1 hd1 (by norm_num [EPS]) _ hu1]
    rfl
  have hdh : dist (⟨1, 0⟩ : Point) ⟨100, 0⟩ = 99 := distEval (by norm_num) (by norm_num)
  have hdl : dist (⟨1, 0⟩ : Point) ⟨101, 0⟩ = 100 := distEval (by norm_num) (by norm_num)
  have hd2 : dist (⟨100, 0⟩ : Point) ⟨101, 0⟩ = 1 := distEval (by norm_num) (by norm_num)
  have hu2 : vnorm (vsub ⟨101, 0⟩ ⟨100, 0⟩) = (⟨1, 0⟩ : Point) := by
    rw [show vsub ⟨101, 0⟩ ⟨100, 0⟩ = (⟨101 - 100, 0 - 0⟩ : Point) from rfl,
      vnorm_eval' (101 - 100) (0 - 0) 1 (by norm_num) (by norm_num)]
    apply Point.ext' <;> norm_num
  have hnoswap : ¬ dist (⟨1, 0⟩ : Point) ⟨101, 0⟩ + EPS < dist (⟨1, 0⟩ : Point) ⟨100, 0⟩ := by
    rw [hdh, hdl]
    norm_num [EPS]
  have hfar : SNAP ≤ dist (⟨1, 0⟩ : Point) ⟨100, 0⟩ := by
    rw [hdh]
    norm_num [SNAP]
  show (stepPrim (stepPrim ⟨[], none, none⟩ (.poly [⟨0, 0⟩, ⟨1, 0⟩]))
    (.poly [⟨100, 0⟩, ⟨101, 0⟩])) = _
  rw [show stepPrim ⟨[], none, none⟩ (.poly [⟨0, 0⟩, ⟨1, 0⟩]) =
      pushLineOriented ⟨[], none, none⟩ ⟨0, 0⟩ ⟨1, 0⟩ from rfl, hstep1]
  show pushPolylineOriented ⟨[.line ⟨0, 0⟩ ⟨1, 0⟩ 1], some ⟨1, 0⟩, some ⟨1, 0⟩⟩
    [⟨100, 0⟩, ⟨101, 0⟩] = _
  rw [pushPoly_two _ ⟨100, 0⟩ ⟨101, 0⟩
    (orientPolyline_keep ⟨1, 0⟩ [⟨100, 0⟩, ⟨101, 0⟩] hnoswap (Or.inr hfar))]
  rw [pushLine_eval _ ⟨100, 0⟩ ⟨101, 0⟩ ⟨100, 0⟩ ⟨101, 0⟩
    (orientPair_far ⟨1, 0⟩ _ _ hnoswap hfar) 1 hd2 (by norm_num [EPS]) _ hu2]
  rfl

theorem gapCe_build :
    buildOrderedSegments gapCeEnds gapCePrims =
      ⟨2, [.line ⟨0, 0⟩ ⟨1, 0⟩ 1, .line ⟨100, 0⟩ ⟨101, 0⟩ 1]⟩ := by
  have hdB : dist (⟨0, 0⟩ : Point) ⟨101, 0⟩ = 101 := distEval (by norm_num) (by norm_num)
  apply build_eval gapCeEnds gapCePrims _ gapCe_fold
  · show finalSegs (some (⟨0, 0⟩, ⟨101, 0⟩))
      [.line ⟨0, 0⟩ ⟨1, 0⟩ 1, .line ⟨100, 0⟩ ⟨101, 0⟩ 1] = _
    apply finalSegs_keep
    rw [show Segment.p1 (.line ⟨0, 0⟩ ⟨1, 0⟩ 1) = ⟨0, 0⟩ from rfl, hdB, dist_self']
    norm_num [EPS]
  · simp only [List.map_cons, List.map_nil, List.sum_cons, List.sum_nil, add_zero]
    show (1 : ℝ) + 1 = 2
    norm_num

/-! ## Concrete angle and sweep values -/

theorem atan2_zero_one : atan2 0 1 = 0 := by
  rw [atan2_eval 0 1 1 (by apply Complex.ext <;> simp)]
  exact Complex.arg_one

theorem atan2_one_zero : atan2 1 0 = Real.pi / 2 := by
  rw [atan2_eval 1 0 Complex.I (by apply Complex.ext <;> simp)]
  exact Complex.arg_I

theorem atan2_neg_one_zero : atan2 (-1) 0 = -(Real.pi / 2) := by
  rw [atan2_eval (-1) 0 (-Complex.I) (by apply Complex.ext <;> simp)]
  exact Complex.arg_neg_I

theorem atan2_zero_neg_one : atan2 0 (-1) = Real.pi := by
  rw [atan2_eval 0 (-1) (-1) (by apply Complex.ext <;> simp)]
  exact Complex.arg_neg_one

theorem sweep_pi_div_two : forceSweep (normSweep (Real.pi / 2 - 0)) 1 = Real.pi / 2 := by
  have hpi := Real.pi_pos
  rw [show Real.pi / 2 - 0 = Real.pi / 2 by ring,
    normSweep_id _ (by linarith) (by linarith)]
  exact forceSweep_eq_self _ _ (by linarith) (by linarith)

theorem sweep_zero : forceSweep (normSweep (0 - 0)) 1 = 0 := by
  have hpi := Real.pi_pos
  rw [show (0 : ℝ) - 0 = 0 by ring, normSweep_id _ (by linarith) (by linarith)]
  exact forceSweep_eq_self _ _ (by linarith) (by linarith)

theorem sweep_minor_flip :
    forceSweep (normSweep (Real.pi - -(Real.pi / 2))) 1 = -(Real.pi / 2) := by
  have hpi := Real.pi_pos
  rw [show Real.pi - -(Real.pi / 2) = 3 * (Real.pi / 2) by ring,
    normSweep_big _ (by linarith),
    show 3 * (Real.pi / 2) - 2 * Real.pi = -(Real.pi / 2) by ring]
  exact forceSweep_eq_self _ _ (by linarith) (by linarith)

/-! ## A concrete edge with an inconsistent explicit-center arc

One arc primitive with endpoints `(1,0)` and `(0,1)`, explicit center
`(0,0)` and radius `2`: the endpoints lie on the unit circle, not on the
radius-2 circle, so the stored angles and radius do not reproduce the stored
endpoints.  Projection at intrinsic coordinate `0` lands at `(2,0)`, not at
the first segment's start `(1,0)`. -/

noncomputable def arcCePrims : List Prim := [.arcP [⟨1, 0⟩, ⟨0, 1⟩] 2 (some ⟨0, 0⟩)]

noncomputable def arcCeEnds : Option (Point × Point) := some (⟨1, 0⟩, ⟨0, 1⟩)

theorem arcCe_makeArc :
    makeArc ⟨1, 0⟩ ⟨0, 1⟩ ⟨0, 0⟩ |(2 : ℝ)| (if (0 : ℝ) ≤ 2 then 1 else -1) =
      ⟨⟨0, 0⟩, 2, 0, Real.pi / 2, Real.pi / 2, Real.pi⟩ := by
  have hsgn : (if (0 : ℝ) ≤ 2 then (1 : ℝ) else -1) = 1 := if_pos (by norm_num)
  rw [hsgn]
  have h1 : atan2 ((0 : ℝ) - 0) ((1 : ℝ) - 0) = 0 := by
    rw [show (0 : ℝ) - 0 = 0 by ring, show (1 : ℝ) - 0 = 1 by ring]
    exact atan2_zero_one
  have h2 : atan2 ((1 : ℝ) - 0) ((0 : ℝ) - 0) = Real.pi / 2 := by
    rw [show (0 : ℝ) - 0 = 0 by ring, show (1 : ℝ) - 0 = 1 by ring]
    exact atan2_one_zero
  rw [makeArc_eval ⟨1, 0⟩ ⟨0, 1⟩ ⟨0, 0⟩ _ _ 0 (Real.pi / 2) (Real.pi / 2)
    h1 h2 sweep_pi_div_two]
  have hpi := Real.pi_pos
  have e1 : |(2 : ℝ)| = 2 := by norm_num
  have e2 : (0 : ℝ) + Real.pi / 2 = Real.pi / 2 := by ring
  have e3 : |Real.pi / 2| * (2 : ℝ) = Real.pi := by
    rw [abs_of_pos (by linarith : (0 : ℝ) < Real.pi / 2)]
    ring
  rw [e1, e2, e3]

theorem arcCe_seg_def :
    arcSeg ⟨1, 0⟩ ⟨0, 1⟩ (⟨⟨0, 0⟩, 2, 0, Real.pi / 2, Real.pi / 2, Real.pi⟩ : ArcParams) =
      .arc ⟨1, 0⟩ ⟨0, 1⟩ ⟨0, 0⟩ 2 0 (Real.pi / 2) (Real.pi / 2) Real.pi := rfl

theorem arcCe_fold :
    arcCePrims.foldl stepPrim ⟨[], none, none⟩ =
      ⟨[.arc ⟨1, 0⟩ ⟨0, 1⟩ ⟨0, 0⟩ 2 0 (Real.pi / 2) (Real.pi / 2) Real.pi],
        some ⟨0, 1⟩, some ⟨0, 1⟩⟩ := by
  have hpi := Real.pi_pos
  show pushArcOriented ⟨[], none, none⟩ [⟨1, 0⟩, ⟨0, 1⟩] 2 (some ⟨0, 0⟩) = _
  rw [pushArc_center_eval ⟨[], none, none⟩ [⟨1, 0⟩, ⟨0, 1⟩] 2 ⟨0, 0⟩ ⟨1, 0⟩ ⟨0, 1⟩
    rfl rfl ⟨1, 0⟩ ⟨0, 1⟩ (orientPair_none _ _) _ arcCe_makeArc]
  rw [arcCe_seg_def]
  have hrv : vnorm (vsub ⟨1, 0⟩
      ((⟨⟨0, 0⟩, 2, 0, Real.pi / 2, Real.pi / 2, Real.pi⟩ : ArcParams).center)) =
      (⟨1, 0⟩ : Point) := by
    rw [show vsub ⟨1, 0⟩
      ((⟨⟨0, 0⟩, 2, 0, Real.pi / 2, Real.pi / 2, Real.pi⟩ : ArcParams).center) =
        (⟨1 - 0, 0 - 0⟩ : Point) from rfl,
      vnorm_eval' (1 - 0) (0 - 0) 1 (by norm_num) (by norm_num)]
    apply Point.ext' <;> norm_num
  have htan : tangentAtStart (arcSeg ⟨1, 0⟩ ⟨0, 1⟩
      (⟨⟨0, 0⟩, 2, 0, Real.pi / 2, Real.pi / 2, Real.pi⟩ : ArcParams)) =
      (⟨0, 1⟩ : Point) := by
    rw [tangentAtStart_arc ⟨1, 0⟩ ⟨0, 1⟩ _ ⟨1, 0⟩ hrv (by
      show ¬ (Real.pi / 2) < 0
      linarith)]
    apply Point.ext' <;> norm_num
  rw [arcCe_seg_def] at htan
  rw [htan]
  rfl

theorem arcCe_build :
    buildOrderedSegments arcCeEnds arcCePrims =
      ⟨Real.pi, [.arc ⟨1, 0⟩ ⟨0, 1⟩ ⟨0, 0⟩ 2 0 (Real.pi / 2) (Real.pi / 2) Real.pi]⟩ := by
  have hd : dist (⟨1, 0⟩ : Point) ⟨0, 1⟩ = Real.sqrt 2 := by
    rw [dist_def]
    norm_num
  apply build_eval arcCeEnds arcCePrims _ arcCe_fold
  · show finalSegs (some (⟨1, 0⟩, ⟨0, 1⟩))
      [.arc ⟨1, 0⟩ ⟨0, 1⟩ ⟨0, 0⟩ 2 0 (Real.pi / 2) (Real.pi / 2) Real.pi] = _
    apply finalSegs_keep
    rw [show Segment.p1 (.arc ⟨1, 0⟩ ⟨0, 1⟩ ⟨0, 0⟩ 2 0 (Real.pi / 2) (Real.pi / 2)
      Real.pi) = ⟨1, 0⟩ from rfl, hd, dist_self']
    have h2 : (0 : ℝ) ≤ Real.sqrt 2 := Real.sqrt_nonneg 2
    norm_num [EPS]
    linarith
  · simp only [List.map_cons, List.map_nil, List.sum_cons, List.sum_nil, add_zero]
    rfl

/-! ## A concrete edge with a zero-length explicit-center arc

One arc primitive whose single point `(1,0)` serves as both endpoints, with
explicit center `(0,0)` and radius `1`: the sweep and length are `0`, and the
assembler keeps the segment (only lines are length-checked). -/

noncomputable def zeroArcPrims : List Prim := [.arcP [⟨1, 0⟩] 1 (some ⟨0, 0⟩)]

noncomputable def zeroArcEnds : Option (Point × Point) := some (⟨1, 0⟩, ⟨2, 0⟩)

theorem zeroArc_makeArc :
    makeArc ⟨1, 0⟩ ⟨1, 0⟩ ⟨0, 0⟩ |(1 : ℝ)| (if (0 : ℝ) ≤ 1 then 1 else -1) =
      ⟨⟨0, 0⟩, 1, 0, 0, 0, 0⟩ := by
  have hsgn : (if (0 : ℝ) ≤ 1 then (1 : ℝ) else -1) = 1 := if_pos (by norm_num)
  rw [hsgn]
  have h1 : atan2 ((0 : ℝ) - 0) ((1 : ℝ) - 0) = 0 := by
    rw [show (0 : ℝ) - 0 = 0 by ring, show (1 : ℝ) - 0 = 1 by ring]
    exact atan2_zero_one
  rw [makeArc_eval ⟨1, 0⟩ ⟨1, 0⟩ ⟨0, 0⟩ _ _ 0 0 0 h1 h1 sweep_zero]
  have e1 : |(1 : ℝ)| = 1 := by norm_num
  have e2 : (0 : ℝ) + 0 = 0 := by ring
  have e3 : |(0 : ℝ)| * 1 = 0 := by norm_num
  rw [e1, e2, e3]

theorem zeroArc_fold :
    zeroArcPrims.foldl stepPrim ⟨[], none, none⟩ =
      ⟨[.arc ⟨1, 0⟩ ⟨1, 0⟩ ⟨0, 0⟩ 1 0 0 0 0], some ⟨1, 0⟩, some ⟨0, 1⟩⟩ := by
  show pushArcOriented ⟨[], none, none⟩ [⟨1, 0⟩] 1 (some ⟨0, 0⟩) = _
  rw [pushArc_center_eval ⟨[], none, none⟩ [⟨1, 0⟩] 1 ⟨0, 0⟩ ⟨1, 0⟩ ⟨1, 0⟩
    rfl rfl ⟨1, 0⟩ ⟨1, 0⟩ (orientPair_none _ _) _ zeroArc_makeArc]
  have hrv : vnorm (vsub ⟨1, 0⟩
      ((⟨⟨0, 0⟩, 1, 0, 0, 0, 0⟩ : ArcParams).center)) = (⟨1, 0⟩ : Point) := by
    rw [show vsub ⟨1, 0⟩ ((⟨⟨0, 0⟩, 1, 0, 0, 0, 0⟩ : ArcParams).center) =
        (⟨1 - 0, 0 - 0⟩ : Point) from rfl,
      vnorm_eval' (1 - 0) (0 - 0) 1 (by norm_num) (by norm_num)]
    apply Point.ext' <;> norm_num
  have htan : tangentAtStart (arcSeg ⟨1, 0⟩ ⟨1, 0⟩
      (⟨⟨0, 0⟩, 1, 0, 0, 0, 0⟩ : ArcParams)) = (⟨0, 1⟩ : Point) := by
    rw [tangentAtStart_arc ⟨1, 0⟩ ⟨1, 0⟩ _ ⟨1, 0⟩ hrv (by
      show ¬ (0 : ℝ) < 0
      norm_num)]
    apply Point.ext' <;> norm_num
  rw [htan]
  rfl

theorem zeroArc_build :
    buildOrderedSegments zeroArcEnds zeroArcPrims =
      ⟨0, [.arc ⟨1, 0⟩ ⟨1, 0⟩ ⟨0, 0⟩ 1 0 0 0 0]⟩ := by
  have hd : dist (⟨1, 0⟩ : Point) ⟨2, 0⟩ = 1 := distEval (by norm_num) (by norm_num)
  apply build_eval zeroArcEnds zeroArcPrims _ zeroArc_fold
  · show finalSegs (some (⟨1, 0⟩, ⟨2, 0⟩)) [.arc ⟨1, 0⟩ ⟨1, 0⟩ ⟨0, 0⟩ 1 0 0 0 0] = _
    apply finalSegs_keep
    rw [show Segment.p1 (.arc ⟨1, 0⟩ ⟨1, 0⟩ ⟨0, 0⟩ 1 0 0 0 0) = ⟨1, 0⟩ from rfl,
      hd, dist_self']
    norm_num [EPS]
  · simp only [List.map_cons, List.map_nil, List.sum_cons, List.sum_nil, add_zero]
    rfl

/-! ## A concrete edge with a line followed by a consistent quarter arc

A line `(0,0)→(1,0)` followed by an explicit-center arc from `(1,0)` to
`(0,1)` around `(0,0)` with radius `1`: a well-formed path whose polyline
sampling at `maxChord = 3` emits only one new point for the arc (the arc's
first sample coincides with the line's end and is deduplicated). -/

noncomputable def samplePrims : List Prim :=
  [.poly [⟨0, 0⟩, ⟨1, 0⟩], .arcP [⟨1, 0⟩, ⟨0, 1⟩] 1 (some ⟨0, 0⟩)]

noncomputable def sampleEnds : Option (Point × Point) := some (⟨0, 0⟩, ⟨0, 1⟩)

theorem sample_makeArc :
    makeArc ⟨1, 0⟩ ⟨0, 1⟩ ⟨0, 0⟩ |(1 : ℝ)| (if (0 : ℝ) ≤ 1 then 1 else -1) =
      ⟨⟨0, 0⟩, 1, 0, Real.pi / 2, Real.pi / 2, Real.pi / 2⟩ := by
  have hsgn : (if (0 : ℝ) ≤ 1 then (1 : ℝ) else -1) = 1 := if_pos (by norm_num)
  rw [hsgn]
  have h1 : atan2 ((0 : ℝ) - 0) ((1 : ℝ) - 0) = 0 := by
    rw [show (0 : ℝ) - 0 = 0 by ring, show (1 : ℝ) - 0 = 1 by ring]
    exact atan2_zero_one
  have h2 : atan2 ((1 : ℝ) - 0) ((0 : ℝ) - 0) = Real.pi / 2 := by
    rw [show (0 : ℝ) - 0 = 0 by ring, show (1 : ℝ) - 0 = 1 by ring]
    exact atan2_one_zero
  rw [makeArc_eval ⟨1, 0⟩ ⟨0, 1⟩ ⟨0, 0⟩ _ _ 0 (Real.pi / 2) (Real.pi / 2)
    h1 h2 sweep_pi_div_two]
  have hpi := Real.pi_pos
  have e1 : |(1 : ℝ)| = 1 := by norm_num
  have e2 : (0 : ℝ) + Real.pi / 2 = Real.pi / 2 := by ring
  have e3 : |Real.pi / 2| * (1 : ℝ) = Real.pi / 2 := by
    rw [abs_of_pos (by linarith : (0 : ℝ) < Real.pi / 2)]
    ring
  rw [e1, e2, e3]

theorem sample_fold :
    samplePrims.foldl stepPrim ⟨[], none, none⟩ =
      ⟨[.line ⟨0, 0⟩ ⟨1, 0⟩ 1,
        .arc ⟨1, 0⟩ ⟨0, 1⟩ ⟨0, 0⟩ 1 0 (Real.pi / 2) (Real.pi / 2) (Real.pi / 2)],
        some ⟨0, 1⟩, some ⟨0, 1⟩⟩ := by
  have hpi := Real.pi_pos
  have hd1 : dist (⟨0, 0⟩ : Point) ⟨1, 0⟩ = 1 := distEval (by norm_num) (by norm_num)
  have hu1 : vnorm (vsub ⟨1, 0⟩ ⟨0, 0⟩) = (⟨1, 0⟩ : Point) := by
    rw [show vsub ⟨1, 0⟩ ⟨0, 0⟩ = (⟨1 - 0, 0 - 0⟩ : Point) from rfl,
      vnorm_eval' (1 - 0) (0 - 0) 1 (by norm_num) (by norm_num)]
    apply Point.ext' <;> norm_num
  have hstep1 : pushLineOriented ⟨[], none, none⟩ ⟨0, 0⟩ ⟨1, 0⟩ =
      ⟨[.line ⟨0, 0⟩ ⟨1, 0⟩ 1], some ⟨1, 0⟩, some ⟨1, 0⟩⟩ := by
    rw [pushLine_eval ⟨[], none, none⟩ ⟨0, 0⟩ ⟨1, 0⟩ ⟨0, 0⟩ ⟨1, 0⟩
      (orientPair_none _ _) 1 hd1 (by norm_num [EPS]) _ hu1]
    rfl
  show (stepPrim (stepPrim ⟨[], none, none⟩ (.poly [⟨0, 0⟩, ⟨1, 0⟩]))
    (.arcP [⟨1, 0⟩, ⟨0, 1⟩] 1 (some ⟨0, 0⟩))) = _
  rw [show stepPrim ⟨[], none, none⟩ (.poly [⟨0, 0⟩, ⟨1, 0⟩]) =
      pushLineOriented ⟨[], none, none⟩ ⟨0, 0⟩ ⟨1, 0⟩ from rfl, hstep1]
  show pushArcOriented ⟨[.line ⟨0, 0⟩ ⟨1, 0⟩ 1], some ⟨1, 0⟩, some ⟨1, 0⟩⟩
    [⟨1, 0⟩, ⟨0, 1⟩] 1 (some ⟨0, 0⟩) = _
  rw [pushArc_center_eval _ [⟨1, 0⟩, ⟨0, 1⟩] 1 ⟨0, 0⟩ ⟨1, 0⟩ ⟨0, 1⟩ rfl rfl
    ⟨1, 0⟩ ⟨0, 1⟩ (orientPair_cont ⟨1, 0⟩ ⟨1, 0⟩ ⟨0, 1⟩ (dist_self' _)) _ sample_makeArc]
  have hrv : vnorm (vsub ⟨1, 0⟩
      ((⟨⟨0, 0⟩, 1, 0, Real.pi / 2, Real.pi / 2, Real.pi / 2⟩ : ArcParams).center)) =
      (⟨1, 0⟩ : Point) := by
    rw [show vsub ⟨1, 0⟩
      ((⟨⟨0, 0⟩, 1, 0, Real.pi / 2, Real.pi / 2, Real.pi / 2⟩ : ArcParams).center) =
        (⟨1 - 0, 0 - 0⟩ : Point) from rfl,
      vnorm_eval' (1 - 0) (0 - 0) 1 (by norm_num) (by norm_num)]
    apply Point.ext' <;> norm_num
  have htan : tangentAtStart (arcSeg ⟨1, 0⟩ ⟨0, 1⟩
      (⟨⟨0, 0⟩, 1, 0, Real.pi / 2, Real.pi / 2, Real.pi / 2⟩ : ArcParams)) =
      (⟨0, 1⟩ : Point) := by
    rw [tangentAtStart_arc ⟨1, 0⟩ ⟨0, 1⟩ _ ⟨1, 0⟩ hrv (by
      show ¬ (Real.pi / 2) < 0
      linarith)]
    apply Point.ext' <;> norm_num
  rw [htan]
  rfl

theorem sample_build :
    buildOrderedSegments sampleEnds samplePrims =
      ⟨1 + Real.pi / 2,
        [.line ⟨0, 0⟩ ⟨1, 0⟩ 1,
         .arc ⟨1, 0⟩ ⟨0, 1⟩ ⟨0, 0⟩ 1 0 (Real.pi / 2) (Real.pi / 2) (Real.pi / 2)]⟩ := by
  have hd : dist (⟨0, 0⟩ : Point) ⟨0, 1⟩ = 1 := distEval (by norm_num) (by norm_num)
  apply build_eval sampleEnds samplePrims _ sample_fold
  · show finalSegs (some (⟨0, 0⟩, ⟨0, 1⟩))
      [.line ⟨0, 0⟩ ⟨1, 0⟩ 1,
       .arc ⟨1, 0⟩ ⟨0, 1⟩ ⟨0, 0⟩ 1 0 (Real.pi / 2) (Real.pi / 2) (Real.pi / 2)] = _
    apply finalSegs_keep
    rw [show Segment.p1 (.line ⟨0, 0⟩ ⟨1, 0⟩ 1) = ⟨0, 0⟩ from rfl, hd, dist_self']
    norm_num [EPS]
  · simp only [List.map_cons, List.map_nil, List.sum_cons, List.sum_nil, add_zero]
    rfl

/-! ## Evaluating the center-less arc resolver on a concrete input -/

theorem arcFromABR_eval_snd (ld : Point) (a b : Point) (rAbs sgn d : ℝ)
    (hd : dist a b = d) (hr : 0 < rAbs) (hd0 : 0 < d) (hr2 : ¬ rAbs < d / 2)
    (hsgn : 0 ≤ sgn) (c1v c2v : Point)
    (hc1 : (⟨(a.x + b.x) / 2 +
        Real.sqrt (max 0 (rAbs * rAbs - d * d / 4)) * -((b.y - a.y) / d),
      (a.y + b.y) / 2 +
        Real.sqrt (max 0 (rAbs * rAbs - d * d / 4)) * ((b.x - a.x) / d)⟩ : Point) = c1v)
    (hc2 : (⟨(a.x + b.x) / 2 -
        Real.sqrt (max 0 (rAbs * rAbs - d * d / 4)) * -((b.y - a.y) / d),
      (a.y + b.y) / 2 -
        Real.sqrt (max 0 (rAbs * rAbs - d * d / 4)) * ((b.x - a.x) / d)⟩ : Point) = c2v)
    (s1v s2v : ArcParams)
    (hs1 : makeArc a b c1v rAbs sgn = s1v) (hs2 : makeArc a b c2v rAbs sgn = s2v)
    (t1v t2v : Point)
    (ht1 : tangentAtStart (arcSeg a b s1v) = t1v)
    (ht2 : tangentAtStart (arcSeg a b s2v) = t2v)
    (hcmp : ¬ (ld.x * t2v.x + ld.y * t2v.y ≤ ld.x * t1v.x + ld.y * t1v.y)) :
    arcFromABR (some ld) a b rAbs sgn true = some (arcSeg a b s2v) := by
  simp only [arcFromABR]
  rw [hd]
  rw [if_neg (not_not_intro hr)]
  rw [if_neg (by push_neg; exact ⟨hd0, not_lt.mp hr2⟩)]
  rw [hc1, hc2]
  rw [if_pos hsgn]
  show some (if ld.x * (tangentAtStart (arcSeg a b (makeArc a b c2v rAbs sgn))).x +
      ld.y * (tangentAtStart (arcSeg a b (makeArc a b c2v rAbs sgn))).y ≤
    ld.x * (tangentAtStart (arcSeg a b (makeArc a b c1v rAbs sgn))).x +
      ld.y * (tangentAtStart (arcSeg a b (makeArc a b c1v rAbs sgn))).y
    then arcSeg a b (makeArc a b c1v rAbs sgn)
    else arcSeg a b (makeArc a b c2v rAbs sgn)) = _
  rw [hs1, hs2, ht1, ht2, if_neg hcmp]

theorem makeArc_flipped :
    makeArc ⟨1, 0⟩ ⟨0, 1⟩ ⟨1, 1⟩ 1 1 =
      ⟨⟨1, 1⟩, 1, -(Real.pi / 2), -Real.pi, -(Real.pi / 2), Real.pi / 2⟩ := by
  have hpi := Real.pi_pos
  have h1 : atan2 ((0 : ℝ) - 1) ((1 : ℝ) - 1) = -(Real.pi / 2) := by
    rw [show (0 : ℝ) - 1 = -1 by ring, show (1 : ℝ) - 1 = 0 by ring]
    exact atan2_neg_one_zero
  have h2 : atan2 ((1 : ℝ) - 1) ((0 : ℝ) - 1) = Real.pi := by
    rw [show (1 : ℝ) - 1 = 0 by ring, show (0 : ℝ) - 1 = -1 by ring]
    exact atan2_zero_neg_one
  rw [makeArc_eval ⟨1, 0⟩ ⟨0, 1⟩ ⟨1, 1⟩ _ _ (-(Real.pi / 2)) Real.pi
    (-(Real.pi / 2)) h1 h2 sweep_minor_flip]
  have e2 : -(Real.pi / 2) + -(Real.pi / 2) = -Real.pi := by ring
  have e3 : |(-(Real.pi / 2))| * (1 : ℝ) = Real.pi / 2 := by
    rw [abs_neg, abs_of_pos (by linarith : (0 : ℝ) < Real.pi / 2)]
    ring
  rw [e2, e3]

theorem makeArc_quarter :
    makeArc ⟨1, 0⟩ ⟨0, 1⟩ ⟨0, 0⟩ 1 1 =
      ⟨⟨0, 0⟩, 1, 0, Real.pi / 2, Real.pi / 2, Real.pi / 2⟩ := by
  have h := sample_makeArc
  rw [show |(1 : ℝ)| = 1 by norm_num, if_pos (by norm_num : (0 : ℝ) ≤ 1)] at h
  exact h

/-- The resolver evaluated on the tangency-flip input: endpoints `(1,0)` and
`(0,1)`, radius `+1`, previous direction `(0,-1)` (pointing down).  The
left-side candidate center `(0,0)` would give sweep `+π/2`, but its start
tangent `(0,1)` points against the previous direction, so the resolver picks
the right-side center `(1,1)`, whose sweep is `-π/2` — a *negative* sweep for
a *positive* input radius. -/
theorem arcFromABR_flip :
    arcFromABR (some ⟨0, -1⟩) ⟨1, 0⟩ ⟨0, 1⟩ 1 1 true =
      some (.arc ⟨1, 0⟩ ⟨0, 1⟩ ⟨1, 1⟩ 1 (-(Real.pi / 2)) (-Real.pi)
        (-(Real.pi / 2)) (Real.pi / 2)) := by
  have hss : Real.sqrt 2 * Real.sqrt 2 = 2 := Real.mul_self_sqrt (by norm_num)
  have hs2pos : (0 : ℝ) < Real.sqrt 2 := Real.sqrt_pos.mpr (by norm_num)
  have hd : dist (⟨1, 0⟩ : Point) ⟨0, 1⟩ = Real.sqrt 2 := by
    rw [dist_def]
    norm_num
  have hs2le : Real.sqrt 2 ≤ 2 := by
    nlinarith [hss, Real.sqrt_nonneg 2]
  have hmax : max 0 (1 * 1 - Real.sqrt 2 * Real.sqrt 2 / 4) = (1 : ℝ) / 2 := by
    rw [hss]
    rw [max_eq_right (by norm_num)]
    norm_num
  have hhalf : Real.sqrt (max 0 (1 * 1 - Real.sqrt 2 * Real.sqrt 2 / 4)) =
      (Real.sqrt 2)⁻¹ := by
    rw [hmax, show (1 : ℝ) / 2 = 2⁻¹ by norm_num, Real.sqrt_inv]
  have hc1 : (⟨(1 + 0) / 2 + Real.sqrt (max 0 (1 * 1 - Real.sqrt 2 * Real.sqrt 2 / 4)) *
      -(((1 : ℝ) - 0) / Real.sqrt 2),
    (0 + 1) / 2 + Real.sqrt (max 0 (1 * 1 - Real.sqrt 2 * Real.sqrt 2 / 4)) *
      (((0 : ℝ) - 1) / Real.sqrt 2)⟩ : Point) = (⟨0, 0⟩ : Point) := by
    rw [hhalf]
    apply Point.ext' <;>
      (simp only
       field_simp)
  have hc2 : (⟨(1 + 0) / 2 - Real.sqrt (max 0 (1 * 1 - Real.sqrt 2 * Real.sqrt 2 / 4)) *
      -(((1 : ℝ) - 0) / Real.sqrt 2),
    (0 + 1) / 2 - Real.sqrt (max 0 (1 * 1 - Real.sqrt 2 * Real.sqrt 2 / 4)) *
      (((0 : ℝ) - 1) / Real.sqrt 2)⟩ : Point) = (⟨1, 1⟩ : Point) := by
    rw [hhalf]
    apply Point.ext' <;>
      (simp only
       field_simp)
  have ht1 : tangentAtStart (arcSeg ⟨1, 0⟩ ⟨0, 1⟩
      (⟨⟨0, 0⟩, 1, 0, Real.pi / 2, Real.pi / 2, Real.pi / 2⟩ : ArcParams)) =
      (⟨0, 1⟩ : Point) := by
    have hrv : vnorm (vsub ⟨1, 0⟩
        ((⟨⟨0, 0⟩, 1, 0, Real.pi / 2, Real.pi / 2, Real.pi / 2⟩ : ArcParams).center)) =
        (⟨1, 0⟩ : Point) := by
      rw [show vsub ⟨1, 0⟩
        ((⟨⟨0, 0⟩, 1, 0, Real.pi / 2, Real.pi / 2, Real.pi / 2⟩ : ArcParams).center) =
          (⟨1 - 0, 0 - 0⟩ : Point) from rfl,
        vnorm_eval' (1 - 0) (0 - 0) 1 (by norm_num) (by norm_num)]
      apply Point.ext' <;> norm_num
    rw [tangentAtStart_arc ⟨1, 0⟩ ⟨0, 1⟩ _ ⟨1, 0⟩ hrv (by
      show ¬ (Real.pi / 2) < 0
      have := Real.pi_pos
      linarith)]
    apply Point.ext' <;> norm_num
  have ht2 : tangentAtStart (arcSeg ⟨1, 0⟩ ⟨0, 1⟩
      (⟨⟨1, 1⟩, 1, -(Real.pi / 2), -Real.pi, -(Real.pi / 2), Real.pi / 2⟩ : ArcParams)) =
      (⟨-1, 0⟩ : Point) := by
    have hrv : vnorm (vsub ⟨1, 0⟩
        ((⟨⟨1, 1⟩, 1, -(Real.pi / 2), -Real.pi, -(Real.pi / 2),
          Real.pi / 2⟩ : ArcParams).center)) = (⟨0, -1⟩ : Point) := by
      rw [show vsub ⟨1, 0⟩
        ((⟨⟨1, 1⟩, 1, -(Real.pi / 2), -Real.pi, -(Real.pi / 2),
          Real.pi / 2⟩ : ArcParams).center) = (⟨1 - 1, 0 - 1⟩ : Point) from rfl,
        vnorm_eval' (1 - 1) (0 - 1) 1 (by norm_num) (by norm_num)]
      apply Point.ext' <;> norm_num
    rw [tangentAtStart_arc_neg ⟨1, 0⟩ ⟨0, 1⟩ _ ⟨0, -1⟩ hrv (by
      show -(Real.pi / 2) < 0
      have := Real.pi_pos
      linarith)]
    apply Point.ext' <;> norm_num
  have := arcFromABR_eval_snd ⟨0, -1⟩ ⟨1, 0⟩ ⟨0, 1⟩ 1 1 (Real.sqrt 2) hd
    (by norm_num) hs2pos (by push_neg; linarith) (by norm_num)
    ⟨0, 0⟩ ⟨1, 1⟩ hc1 hc2 _ _ makeArc_quarter makeArc_flipped
    ⟨0, 1⟩ ⟨-1, 0⟩ ht1 ht2 (by norm_num)
  rw [this]
  rfl

/-! ## Evaluating the projection entry point -/

theorem projectIntrinsicToXY_none (ends : Option (Point × Point))
    (prims : List Prim)
    (h : ¬ 0 < (buildOrderedSegments ends prims).length) (ik : JSNum) :
    projectIntrinsicToXY ends prims ik = none := by
  show (if ¬ 0 < (buildOrderedSegments ends prims).length then none
    else match ik with
      | .num v => some (projectIK_Ordered (buildOrderedSegments ends prims)
          (interpIK v (buildOrderedSegments ends prims).length))
      | _ => none) = none
  rw [if_pos h]

theorem projectIntrinsicToXY_num (ends : Option (Point × Point))
    (prims : List Prim)
    (h : 0 < (buildOrderedSegments ends prims).length) (v : ℝ) :
    projectIntrinsicToXY ends prims (.num v) =
      some (projectIK_Ordered (buildOrderedSegments ends prims)
        (interpIK v (buildOrderedSegments ends prims).length)) := by
  show (if ¬ 0 < (buildOrderedSegments ends prims).length then none
    else match JSNum.num v with
      | .num v => some (projectIK_Ordered (buildOrderedSegments ends prims)
          (interpIK v (buildOrderedSegments ends prims).length))
      | _ => none) = _
  rw [if_neg (not_not_intro h)]

theorem interpIK_frac (v total : ℝ) (h0 : 0 ≤ v) (h1 : v ≤ 1) :
    interpIK v total = v * total := by
  unfold interpIK
  rw [if_pos ⟨h0, h1⟩]

theorem interpIK_abs (v total : ℝ) (h : ¬ (0 ≤ v ∧ v ≤ 1)) :
    interpIK v total = v := by
  unfold interpIK
  rw [if_neg h]

/-- The projection of the inconsistent-arc edge at intrinsic coordinate `0`
is the point at angle `ang1` on the radius-2 circle, `(2,0)` — not the stored
start point `(1,0)`. -/
theorem arcCe_proj_zero :
    projectIK_Ordered
      ⟨Real.pi, [.arc ⟨1, 0⟩ ⟨0, 1⟩ ⟨0, 0⟩ 2 0 (Real.pi / 2) (Real.pi / 2) Real.pi]⟩
      0 = ⟨2, 0⟩ := by
  have hpi := Real.pi_pos
  show walkOrEnd
    ⟨Real.pi, [.arc ⟨1, 0⟩ ⟨0, 1⟩ ⟨0, 0⟩ 2 0 (Real.pi / 2) (Real.pi / 2) Real.pi]⟩
    (max 0 (min 0 Real.pi)) = ⟨2, 0⟩
  rw [min_eq_left (le_of_lt hpi), max_self]
  unfold walkOrEnd
  have hw : walkSegs
      [.arc ⟨1, 0⟩ ⟨0, 1⟩ ⟨0, 0⟩ 2 0 (Real.pi / 2) (Real.pi / 2) Real.pi] 0 0 =
      some ⟨2, 0⟩ := by
    unfold walkSegs
    rw [if_pos (show (0 : ℝ) ≤ 0 +
      Segment.len (.arc ⟨1, 0⟩ ⟨0, 1⟩ ⟨0, 0⟩ 2 0 (Real.pi / 2) (Real.pi / 2) Real.pi)
      from by
        show (0 : ℝ) ≤ 0 + Real.pi
        linarith)]
    rw [show (if 0 < Segment.len (.arc ⟨1, 0⟩ ⟨0, 1⟩ ⟨0, 0⟩ 2 0 (Real.pi / 2)
        (Real.pi / 2) Real.pi) then
        ((0 : ℝ) - 0) / Segment.len (.arc ⟨1, 0⟩ ⟨0, 1⟩ ⟨0, 0⟩ 2 0 (Real.pi / 2)
          (Real.pi / 2) Real.pi) else 0) = 0 from by
      rw [if_pos (show (0 : ℝ) <
        Segment.len (.arc ⟨1, 0⟩ ⟨0, 1⟩ ⟨0, 0⟩ 2 0 (Real.pi / 2) (Real.pi / 2) Real.pi)
        from hpi)]
      show ((0 : ℝ) - 0) / Real.pi = 0
      norm_num]
    show some (segPointAt
      (.arc ⟨1, 0⟩ ⟨0, 1⟩ ⟨0, 0⟩ 2 0 (Real.pi / 2) (Real.pi / 2) Real.pi) 0) = _
    show some (⟨0 + 2 * Real.cos (0 + Real.pi / 2 * 0),
      0 + 2 * Real.sin (0 + Real.pi / 2 * 0)⟩ : Point) = _
    congr 1
    apply Point.ext' <;> norm_num
  rw [hw]

/-! ## Evaluating the sampler on the line-plus-quarter-arc path -/

theorem arcSampleCount_quarter : arcSampleCount (Real.pi / 2) 1 3 = 2 := by
  unfold arcSampleCount
  have hpi := Real.pi_pos
  rw [max_eq_right (by norm_num : (1e-6 : ℝ) ≤ 3)]
  rw [abs_of_pos (by linarith : (0 : ℝ) < Real.pi / 2)]
  have hceil : ⌈Real.pi / 2 * 1 / 3⌉ = 1 := by
    rw [Int.ceil_eq_iff]
    constructor
    · push_cast
      nlinarith
    · push_cast
      nlinarith [Real.pi_le_four]
  rw [hceil]
  norm_num

theorem sampleRaw_quarter :
    sampleRaw 3 (.arc ⟨1, 0⟩ ⟨0, 1⟩ ⟨0, 0⟩ 1 0 (Real.pi / 2) (Real.pi / 2)
      (Real.pi / 2)) = [⟨1, 0⟩, ⟨0, 1⟩] := by
  simp only [sampleRaw]
  rw [arcSampleCount_quarter]
  show [(⟨0 + 1 * Real.cos (0 + Real.pi / 2 * (((0 : ℕ) : ℝ) / (((2 : ℕ) : ℝ) - 1))),
      0 + 1 * Real.sin (0 + Real.pi / 2 * (((0 : ℕ) : ℝ) / (((2 : ℕ) : ℝ) - 1)))⟩ : Point),
    ⟨0 + 1 * Real.cos (0 + Real.pi / 2 * (((1 : ℕ) : ℝ) / (((2 : ℕ) : ℝ) - 1))),
      0 + 1 * Real.sin (0 + Real.pi / 2 * (((1 : ℕ) : ℝ) / (((2 : ℕ) : ℝ) - 1)))⟩] = _
  have ha0 : (0 : ℝ) + Real.pi / 2 * (((0 : ℕ) : ℝ) / (((2 : ℕ) : ℝ) - 1)) = 0 := by
    push_cast
    ring
  have ha1 : (0 : ℝ) + Real.pi / 2 * (((1 : ℕ) : ℝ) / (((2 : ℕ) : ℝ) - 1)) =
      Real.pi / 2 := by
    push_cast
    ring
  rw [ha0, ha1]
  rw [show (⟨0 + 1 * Real.cos 0, 0 + 1 * Real.sin 0⟩ : Point) = (⟨1, 0⟩ : Point) from by
    apply Point.ext' <;> norm_num]
  rw [show (⟨0 + 1 * Real.cos (Real.pi / 2), 0 + 1 * Real.sin (Real.pi / 2)⟩ : Point) =
      (⟨0, 1⟩ : Point) from by
    apply Point.ext' <;> norm_num [Real.cos_pi_div_two, Real.sin_pi_div_two]]

theorem sample_polyline_eval :
    sampleSegmentsToPolyline
      ⟨1 + Real.pi / 2,
        [.line ⟨0, 0⟩ ⟨1, 0⟩ 1,
         .arc ⟨1, 0⟩ ⟨0, 1⟩ ⟨0, 0⟩ 1 0 (Real.pi / 2) (Real.pi / 2) (Real.pi / 2)]⟩ 3 =
      [⟨0, 0⟩, ⟨1, 0⟩, ⟨0, 1⟩] := by
  unfold sampleSegmentsToPolyline
  show ((([.line ⟨0, 0⟩ ⟨1, 0⟩ 1,
    .arc ⟨1, 0⟩ ⟨0, 1⟩ ⟨0, 0⟩ 1 0 (Real.pi / 2) (Real.pi / 2) (Real.pi / 2)] :
      List Segment).map (sampleRaw 3)).flatten).foldl dedupPush [] = _
  rw [List.map_cons, List.map_cons, List.map_nil]
  rw [show sampleRaw 3 (.line ⟨0, 0⟩ ⟨1, 0⟩ 1) = [⟨0, 0⟩, ⟨1, 0⟩] from rfl,
    sampleRaw_quarter]
  rw [show ([[⟨0, 0⟩, ⟨1, 0⟩], [⟨1, 0⟩, ⟨0, 1⟩]] : List (List Point)).flatten =
    [⟨0, 0⟩, ⟨1, 0⟩, ⟨1, 0⟩, ⟨0, 1⟩] from rfl]
  have d1 : dedupPush [] ⟨0, 0⟩ = [⟨0, 0⟩] := by
    unfold dedupPush
    rw [if_neg (by simp)]
    rfl
  have d2 : dedupPush [⟨0, 0⟩] ⟨1, 0⟩ = [⟨0, 0⟩, ⟨1, 0⟩] := by
    unfold dedupPush
    rw [if_neg (by
      simp only [List.getLast?_singleton, Option.some.injEq]
      intro hc
      have := congrArg Point.x hc
      norm_num at this)]
    rfl
  have d3 : dedupPush [⟨0, 0⟩, ⟨1, 0⟩] ⟨1, 0⟩ = [⟨0, 0⟩, ⟨1, 0⟩] := by
    unfold dedupPush
    rw [if_pos (show ([⟨0, 0⟩, ⟨1, 0⟩] : List Point).getLast? = some ⟨1, 0⟩ from rfl)]
  have d4 : dedupPush [⟨0, 0⟩, ⟨1, 0⟩] ⟨0, 1⟩ = [⟨0, 0⟩, ⟨1, 0⟩, ⟨0, 1⟩] := by
    unfold dedupPush
    rw [if_neg (by
      rw [show ([⟨0, 0⟩, ⟨1, 0⟩] : List Point).getLast? = some ⟨1, 0⟩ from rfl]
      simp only [Option.some.injEq]
      intro hc
      have := congrArg Point.x hc
      norm_num at this)]
    rfl
  show dedupPush (dedupPush (dedupPush (dedupPush [] ⟨0, 0⟩) ⟨1, 0⟩) ⟨1, 0⟩) ⟨0, 1⟩ = _
  rw [d1, d2, d3, d4]

/-! ## Degenerate arcs and orientation stability -/

theorem arcFromABR_degenerate (ld : Option Point) (a b : Point) (rAbs sgn : ℝ)
    (pt : Bool)
    (hdeg : ¬ 0 < rAbs ∨ ¬ 0 < dist a b ∨ rAbs < dist a b / 2) :
    arcFromABR ld a b rAbs sgn pt = none := by
  simp only [arcFromABR]
  by_cases h1 : ¬ 0 < rAbs
  · rw [if_pos h1]
  · rw [if_neg h1]
    rw [if_pos (by
      rcases hdeg with h | h | h
      · exact absurd h h1
      · exact Or.inl h
      · exact Or.inr h)]

/-- After `orientPair` against a chain end, the chosen pair is stable: no
further swap would fire (the chosen start is not farther than the chosen end
by more than `EPS`) and no further snap would fire (the chosen start is
`same` as the chain end or at least `SNAP` away). -/
theorem orientPair_post (e p q a b : Point)
    (hab : orientPair (some e) p q = (a, b)) :
    ¬ dist e b + EPS < dist e a ∧ (same e a ∨ SNAP ≤ dist e a) := by
  have hab' : orientSnap e (orientSwap e p q) = (a, b) := hab
  unfold orientSwap at hab'
  by_cases hswap : dist e q + EPS < dist e p
  · rw [if_pos hswap] at hab'
    unfold orientSnap at hab'
    by_cases hsnap : ¬ same e ((q, p) : Point × Point).1 ∧
        dist e ((q, p) : Point × Point).1 < SNAP
    · rw [if_pos hsnap] at hab'
      have ha : a = e := by
        have := congrArg Prod.fst hab'
        exact this.symm
      constructor
      · rw [ha, dist_self']
        push_neg
        have := dist_nonneg' e b
        have := EPS_pos
        linarith
      · left
        rw [same, ha, dist_self']
        exact le_of_lt SAMETOL_pos
    · rw [if_neg hsnap] at hab'
      have ha : a = q := by
        have := congrArg Prod.fst hab'
        exact this.symm
      have hb : b = p := by
        have := congrArg Prod.snd hab'
        exact this.symm
      subst ha
      subst hb
      push_neg at hsnap
      constructor
      · intro hc
        have := EPS_pos
        linarith
      · by_cases hsame : same e a
        · exact Or.inl hsame
        · exact Or.inr (hsnap hsame)
  · rw [if_neg hswap] at hab'
    unfold orientSnap at hab'
    by_cases hsnap : ¬ same e ((p, q) : Point × Point).1 ∧
        dist e ((p, q) : Point × Point).1 < SNAP
    · rw [if_pos hsnap] at hab'
      have ha : a = e := by
        have := congrArg Prod.fst hab'
        exact this.symm
      constructor
      · rw [ha, dist_self']
        push_neg
        have := dist_nonneg' e b
        have := EPS_pos
        linarith
      · left
        rw [same, ha, dist_self']
        exact le_of_lt SAMETOL_pos
    · rw [if_neg hsnap] at hab'
      have ha : a = p := by
        have := congrArg Prod.fst hab'
        exact this.symm
      have hb : b = q := by
        have := congrArg Prod.snd hab'
        exact this.symm
      subst ha
      subst hb
      push_neg at hsnap
      constructor
      · exact hswap
      · by_cases hsame : same e a
        · exact Or.inl hsame
        · exact Or.inr (hsnap hsame)

/-- A pair already satisfying the post-conditions of `orientPair` is left
unchanged by a second application. -/
theorem orientPair_idem (e a b : Point)
    (h1 : ¬ dist e b + EPS < dist e a)
    (h2 : same e a ∨ SNAP ≤ dist e a) :
    orientPair (some e) a b = (a, b) := by
  show orientSnap e (orientSwap e a b) = (a, b)
  rw [show orientSwap e a b = (a, b) from by unfold orientSwap; rw [if_neg h1]]
  unfold orientSnap
  rw [if_neg (by
    rintro ⟨hns, hlt⟩
    rcases h2 with hs | hf
    · exact hns hs
    · exact absurd hlt (not_lt.mpr hf))]

theorem orientPolyline_pair (e a b : Point)
    (h1 : ¬ dist e b + EPS < dist e a)
    (h2 : same e a ∨ SNAP ≤ dist e a) :
    orientPolyline (some e) [a, b] = [a, b] := by
  apply orientPolyline_keep e [a, b]
  · exact h1
  · exact h2

/-! ## The claims -/

/-- C1: for every edge whose assembled path has total length `L > 0` and
every finite number `v`, `projectIntrinsicToXY` interprets `v` as a fraction
(arc-length offset `v * L`) when `0 ≤ v ≤ 1` and directly as meters
otherwise, and in both cases the offset actually handed to the segment walk
is the interpretation clamped to `[0, L]`. -/
theorem c1_intrinsic_interpretation (ends : Option (Point × Point))
    (prims : List Prim) (v : ℝ)
    (hpos : 0 < (buildOrderedSegments ends prims).length) :
    projectIntrinsicToXY ends prims (.num v) =
      some (walkOrEnd (buildOrderedSegments ends prims)
        (max 0 (min (interpIK v (buildOrderedSegments ends prims).length)
          (buildOrderedSegments ends prims).length))) ∧
    (0 ≤ v ∧ v ≤ 1 → interpIK v (buildOrderedSegments ends prims).length =
      v * (buildOrderedSegments ends prims).length) ∧
    (¬ (0 ≤ v ∧ v ≤ 1) → interpIK v (buildOrderedSegments ends prims).length = v) ∧
    0 ≤ max 0 (min (interpIK v (buildOrderedSegments ends prims).length)
      (buildOrderedSegments ends prims).length) ∧
    max 0 (min (interpIK v (buildOrderedSegments ends prims).length)
      (buildOrderedSegments ends prims).length) ≤
      (buildOrderedSegments ends prims).length := by
  refine ⟨?_, fun h => interpIK_frac v _ h.1 h.2, fun h => interpIK_abs v _ h,
    le_max_left _ _, max_le (le_of_lt hpos) (min_le_right _ _)⟩
  rw [projectIntrinsicToXY_num ends prims hpos v]
  rfl

/-- C1 witness: the interpretation contract instantiated on the concrete
single-line edge at `v = 2` (interpreted as meters). -/
theorem c1_witness :
    0 < (buildOrderedSegments exLineEnds exLinePrims).length ∧
    projectIntrinsicToXY exLineEnds exLinePrims (.num 2) =
      some (walkOrEnd (buildOrderedSegments exLineEnds exLinePrims)
        (max 0 (min (interpIK 2 (buildOrderedSegments exLineEnds exLinePrims).length)
          (buildOrderedSegments exLineEnds exLinePrims).length))) := by
  have hpos : 0 < (buildOrderedSegments exLineEnds exLinePrims).length := by
    rw [exLine_build]
    show (0 : ℝ) < 5
    norm_num
  exact ⟨hpos, (c1_intrinsic_interpretation exLineEnds exLinePrims 2 hpos).1⟩

/-- C4 counterexample: two line primitives `99` units apart assemble into a
path whose consecutive segments are `99` units apart — far beyond the claimed
`1e-2` continuity bound. -/
theorem c4_counterexample :
    buildOrderedSegments gapCeEnds gapCePrims =
      ⟨2, [.line ⟨0, 0⟩ ⟨1, 0⟩ 1, .line ⟨100, 0⟩ ⟨101, 0⟩ 1]⟩ ∧
    dist (Segment.p2 (.line ⟨0, 0⟩ ⟨1, 0⟩ 1))
      (Segment.p1 (.line ⟨100, 0⟩ ⟨101, 0⟩ 1)) = 99 ∧
    ¬ ((99 : ℝ) ≤ 1e-2) := by
  refine ⟨gapCe_build, ?_, by norm_num⟩
  show dist (⟨1, 0⟩ : Point) ⟨100, 0⟩ = 99
  exact distEval (by norm_num) (by norm_num)

/-- C4 amended: consecutive assembled segments are separated by a gap that is
either at most the `same` tolerance `1e-3` (hence within the claimed `1e-2`)
or at least the snap distance `1e-2`: the `≤ 1e-2` continuity bound holds
exactly when each primitive attaches within the snap tolerance, and a larger
input gap is preserved as-is. -/
theorem c4_gap_dichotomy (ends : Option (Point × Point)) (prims : List Prim) :
    List.Chain' (fun s t : Segment =>
      dist s.p2 t.p1 ≤ SAMETOL ∨ SNAP ≤ dist s.p2 t.p1)
      (buildOrderedSegments ends prims).segments :=
  build_chain ends prims

/-- C8 counterexample: an explicit-center arc whose two endpoints coincide
assembles into a kept segment of length `0 ≤ 1e-6`; arcs are not subject to
the zero-length drop. -/
theorem c8_counterexample :
    buildOrderedSegments zeroArcEnds zeroArcPrims =
      ⟨0, [.arc ⟨1, 0⟩ ⟨1, 0⟩ ⟨0, 0⟩ 1 0 0 0 0]⟩ ∧
    (Segment.arc ⟨1, 0⟩ ⟨1, 0⟩ ⟨0, 0⟩ 1 0 0 0 0) ∈
      (buildOrderedSegments zeroArcEnds zeroArcPrims).segments ∧
    Segment.len (.arc ⟨1, 0⟩ ⟨1, 0⟩ ⟨0, 0⟩ 1 0 0 0 0) ≤ 1e-6 := by
  refine ⟨zeroArc_build, ?_, ?_⟩
  · rw [zeroArc_build]
    exact List.mem_singleton_self _
  · show (0 : ℝ) ≤ 1e-6
    norm_num

/-- C8 amended: every *line* segment of an assembled path has length
strictly greater than `1e-6` (the `pushLineOriented` drop guard); arc
segments carry no such guarantee. -/
theorem c8_line_min_length (ends : Option (Point × Point)) (prims : List Prim) :
    ∀ s ∈ (buildOrderedSegments ends prims).segments,
      ∀ (p q : Point) (l : ℝ), s = .line p q l → EPS < l := by
  intro s hs p q l hline
  have h := build_lines ends prims s hs
  rw [hline] at h
  exact h

/-- C8 witness: the line-length bound instantiated on the concrete
single-line edge. -/
theorem c8_witness : EPS < 5 :=
  c8_line_min_length exLineEnds exLinePrims (.line ⟨0, 0⟩ ⟨3, 4⟩ 5)
    (by rw [exLine_build]; exact List.mem_singleton_self _) ⟨0, 0⟩ ⟨3, 4⟩ 5 rfl

/-- C10: for every edge and every non-finite input (`NaN`, `+∞`, `-∞`, or a
value that coerces to `NaN`), `projectIntrinsicToXY` returns `null` rather
than a point. -/
theorem c10_nonfinite_null (ends : Option (Point × Point)) (prims : List Prim)
    (ik : JSNum) (h : ik.isFinite = false) :
    projectIntrinsicToXY ends prims ik = none := by
  by_cases hpos : 0 < (buildOrderedSegments ends prims).length
  · show (if ¬ 0 < (buildOrderedSegments ends prims).length then none
      else match ik with
        | .num v => some (projectIK_Ordered (buildOrderedSegments ends prims)
            (interpIK v (buildOrderedSegments ends prims).length))
        | _ => none) = none
    rw [if_neg (not_not_intro hpos)]
    cases ik with
    | num v => simp [JSNum.isFinite] at h
    | nan => rfl
    | posInf => rfl
    | negInf => rfl
  · exact projectIntrinsicToXY_none ends prims hpos ik

/-- C10 witness: `NaN` on the concrete single-line edge yields `null`. -/
theorem c10_witness : projectIntrinsicToXY exLineEnds exLinePrims .nan = none :=
  c10_nonfinite_null exLineEnds exLinePrims .nan rfl

/-- C2 counterexample: on the edge with A = `(0,0)`, B = `(10,0)` and the
single chain segment `(9,0) → (8,0)`, the reversal fires (the old first point
is closer to B), yet the reversed chain's first start `(8,0)` is still
strictly closer to B than to A — refuting the claimed consequence that the
first assembled start is closer (or tied) to A. -/
theorem c2_counterexample :
    buildOrderedSegments revCeEnds revCePrims = ⟨1, [.line ⟨8, 0⟩ ⟨9, 0⟩ 1]⟩ ∧
    dist (⟨9, 0⟩ : Point) ⟨10, 0⟩ + EPS < dist (⟨9, 0⟩ : Point) ⟨0, 0⟩ ∧
    dist (⟨8, 0⟩ : Point) ⟨10, 0⟩ < dist (⟨8, 0⟩ : Point) ⟨0, 0⟩ := by
  have h9B : dist (⟨9, 0⟩ : Point) ⟨10, 0⟩ = 1 := distEval (by norm_num) (by norm_num)
  have h9A : dist (⟨9, 0⟩ : Point) ⟨0, 0⟩ = 9 := distEval (by norm_num) (by norm_num)
  have h8B : dist (⟨8, 0⟩ : Point) ⟨10, 0⟩ = 2 := distEval (by norm_num) (by norm_num)
  have h8A : dist (⟨8, 0⟩ : Point) ⟨0, 0⟩ = 8 := distEval (by norm_num) (by norm_num)
  refine ⟨revCe_build, ?_, ?_⟩
  · rw [h9B, h9A]
    norm_num [EPS]
  · rw [h8B, h8A]
    norm_num

/-- C2 amended: when the chain's first point is closer to B than to A by more
than `EPS`, the whole chain is reversed (order reversed, endpoints swapped,
and for arcs angles swapped and sweep negated), so the *last* segment's end
becomes the old first point, which is strictly closer to B; when no reversal
fires, the chain is kept and the first start is closer to A up to the `EPS`
slack.  No claim about the first start after a reversal (or the last end
without one) is available. -/
theorem c2_reversal (A B : Point) (prims : List Prim) (s0 : Segment)
    (rest : List Segment)
    (hsegs : (prims.foldl stepPrim ⟨[], none, none⟩).segs = s0 :: rest) :
    (dist s0.p1 B + EPS < dist s0.p1 A →
      (buildOrderedSegments (some (A, B)) prims).segments =
        ((s0 :: rest).reverse).map revSeg ∧
      (buildOrderedSegments (some (A, B)) prims).segments.getLast? =
        some (revSeg s0) ∧
      (revSeg s0).p2 = s0.p1 ∧ dist s0.p1 B < dist s0.p1 A) ∧
    (¬ dist s0.p1 B + EPS < dist s0.p1 A →
      (buildOrderedSegments (some (A, B)) prims).segments = s0 :: rest ∧
      dist s0.p1 A ≤ dist s0.p1 B + EPS) ∧
    (∀ (p q c : Point) (r a1 a2 sw l : ℝ),
      revSeg (.arc p q c r a1 a2 sw l) = .arc q p c r a2 a1 (-sw) l) ∧
    (∀ (p q : Point) (l : ℝ), revSeg (.line p q l) = .line q p l) := by
  refine ⟨?_, ?_, fun p q c r a1 a2 sw l => rfl, fun p q l => rfl⟩
  · intro hrev
    have hb : (buildOrderedSegments (some (A, B)) prims).segments =
        ((s0 :: rest).reverse).map revSeg := by
      rw [build_segments, hsegs]
      exact finalSegs_rev A B s0 rest hrev
    refine ⟨hb, ?_, revSeg_p2 s0, by
      have := EPS_pos
      linarith⟩
    rw [hb, List.map_reverse, List.getLast?_reverse]
    rw [List.map_cons, List.head?_cons]
  · intro hkeep
    constructor
    · rw [build_segments, hsegs]
      exact finalSegs_keep A B s0 rest hkeep
    · push_neg at hkeep
      exact hkeep

/-- C2 witness: the reversal branch instantiated on the concrete reversed
edge. -/
theorem c2_witness :
    (buildOrderedSegments revCeEnds revCePrims).segments =
      (([Segment.line ⟨9, 0⟩ ⟨8, 0⟩ 1] : List Segment).reverse).map revSeg ∧
    (buildOrderedSegments revCeEnds revCePrims).segments.getLast? =
      some (revSeg (.line ⟨9, 0⟩ ⟨8, 0⟩ 1)) := by
  have hdB : dist (⟨9, 0⟩ : Point) ⟨10, 0⟩ = 1 := distEval (by norm_num) (by norm_num)
  have hdA : dist (⟨9, 0⟩ : Point) ⟨0, 0⟩ = 9 := distEval (by norm_num) (by norm_num)
  have h := c2_reversal ⟨0, 0⟩ ⟨10, 0⟩ revCePrims (.line ⟨9, 0⟩ ⟨8, 0⟩ 1) []
    (by rw [revCe_fold])
  have hrev : dist (Segment.p1 (.line ⟨9, 0⟩ ⟨8, 0⟩ 1)) (⟨10, 0⟩ : Point) + EPS <
      dist (Segment.p1 (.line ⟨9, 0⟩ ⟨8, 0⟩ 1)) (⟨0, 0⟩ : Point) := by
    show dist (⟨9, 0⟩ : Point) ⟨10, 0⟩ + EPS < dist (⟨9, 0⟩ : Point) ⟨0, 0⟩
    rw [hdA, hdB]
    norm_num [EPS]
  exact ⟨(h.1 hrev).1, (h.1 hrev).2.1⟩

/-- C3 counterexample: `arcFromABR` on endpoints `(1,0)`, `(0,1)` with
*positive* radius `1` and previous tangent `(0,-1)` resolves to the
right-side center `(1,1)` with *negative* sweep `-π/2`: the sign of the
returned sweep does not match the sign of the input radius. -/
theorem c3_counterexample :
    arcFromABR (some ⟨0, -1⟩) ⟨1, 0⟩ ⟨0, 1⟩ 1 1 true =
      some (.arc ⟨1, 0⟩ ⟨0, 1⟩ ⟨1, 1⟩ 1 (-(Real.pi / 2)) (-Real.pi)
        (-(Real.pi / 2)) (Real.pi / 2)) ∧
    (0 : ℝ) < 1 ∧
    Segment.sweep (.arc ⟨1, 0⟩ ⟨0, 1⟩ ⟨1, 1⟩ 1 (-(Real.pi / 2)) (-Real.pi)
      (-(Real.pi / 2)) (Real.pi / 2)) < 0 := by
  refine ⟨arcFromABR_flip, by norm_num, ?_⟩
  show -(Real.pi / 2) < 0
  have := Real.pi_pos
  linarith

/-- C3 amended: every resolved arc has `|signedSweep| ≤ π`, and the final
sweep equals the `(-π, π]`-normalization of the raw angle difference — the
sign forcing of lines 124-125 is cancelled by the minor-arc clamp except at
an exact half-turn, where the tie is broken toward `turnSign`.  In
particular `sign(signedSweep) = sign(radius)` holds only when the minor arc
already turns that way. -/
theorem c3_sweep :
    (∀ (a b c : Point) (rAbs sgn : ℝ),
      |(makeArc a b c rAbs sgn).sweep| ≤ Real.pi ∧
      ((makeArc a b c rAbs sgn).sweep =
          normSweep (atan2 (b.y - c.y) (b.x - c.x) - atan2 (a.y - c.y) (a.x - c.x)) ∨
        (normSweep (atan2 (b.y - c.y) (b.x - c.x) - atan2 (a.y - c.y) (a.x - c.x)) =
            Real.pi ∧ sgn < 0 ∧ (makeArc a b c rAbs sgn).sweep = -Real.pi))) ∧
    (∀ (ld : Option Point) (a b : Point) (rAbs sgn : ℝ) (pt : Bool) (seg : Segment),
      arcFromABR ld a b rAbs sgn pt = some seg → |seg.sweep| ≤ Real.pi) :=
  ⟨makeArc_sweep_spec, fun _ _ _ _ _ _ _ h => arcFromABR_sweep_le h⟩

/-- C3 witness: the minor-arc bound applied to the concretely resolved
flipped arc. -/
theorem c3_witness :
    |Segment.sweep (.arc ⟨1, 0⟩ ⟨0, 1⟩ ⟨1, 1⟩ 1 (-(Real.pi / 2)) (-Real.pi)
      (-(Real.pi / 2)) (Real.pi / 2))| ≤ Real.pi :=
  c3_sweep.2 (some ⟨0, -1⟩) ⟨1, 0⟩ ⟨0, 1⟩ 1 1 true _ arcFromABR_flip

/-- C7 counterexample: an edge with no geometry assembles to zero segments
and total length `0`; `projectIntrinsicToXY` then returns `null`, not the
claimed `{x:0, y:0}` fallback (which lives in `projectIK_Ordered` and is
unreachable through the guarded entry point). -/
theorem c7_counterexample :
    buildOrderedSegments (some (⟨0, 0⟩, ⟨1, 0⟩)) [] = ⟨0, []⟩ ∧
    projectIntrinsicToXY (some (⟨0, 0⟩, ⟨1, 0⟩)) [] (.num (1 / 2)) = none ∧
    (none : Option Point) ≠ some ⟨0, 0⟩ := by
  refine ⟨rfl, ?_, by simp⟩
  apply projectIntrinsicToXY_none
  show ¬ (0 : ℝ) < 0
  norm_num

/-- C7 amended: `projectIntrinsicToXY` returns `null` whenever the assembled
total length is not positive (which covers every zero-segment path), and the
`{x:0, y:0}` fallback is the behavior of the inner `projectIK_Ordered` when
called directly on an empty segment list; neither function throws. -/
theorem c7_null_and_origin :
    (∀ (ends : Option (Point × Point)) (prims : List Prim) (ik : JSNum),
      ¬ 0 < (buildOrderedSegments ends prims).length →
      projectIntrinsicToXY ends prims ik = none) ∧
    (∀ L ik : ℝ, projectIK_Ordered ⟨L, []⟩ ik = ⟨0, 0⟩) :=
  ⟨fun ends prims ik h => projectIntrinsicToXY_none ends prims h ik,
   fun _ _ => rfl⟩

/-- C7 witness: the null branch and the origin fallback at concrete inputs. -/
theorem c7_witness :
    projectIntrinsicToXY (some (⟨0, 0⟩, ⟨1, 0⟩)) [] (.num 7) = none ∧
    projectIK_Ordered ⟨0, []⟩ (1 / 2) = ⟨0, 0⟩ :=
  ⟨c7_null_and_origin.1 (some (⟨0, 0⟩, ⟨1, 0⟩)) [] (.num 7)
      (by show ¬ (0 : ℝ) < 0; norm_num),
   c7_null_and_origin.2 0 (1 / 2)⟩

/-- C5 counterexample: the explicit-center arc resolver trusts the given
center without re-projecting the endpoints, so on an edge whose stored arc
start `(1,0)` does not lie on the circle (center `(0,0)`, radius `2`),
projection at intrinsic coordinate `0` returns the angle-parametrized point
`(2,0)`, not the first segment's start point. -/
theorem c5_counterexample :
    projectIntrinsicToXY arcCeEnds arcCePrims (.num 0) = some ⟨2, 0⟩ ∧
    (buildOrderedSegments arcCeEnds arcCePrims).segments.head? =
      some (.arc ⟨1, 0⟩ ⟨0, 1⟩ ⟨0, 0⟩ 2 0 (Real.pi / 2) (Real.pi / 2) Real.pi) ∧
    Segment.p1 (.arc ⟨1, 0⟩ ⟨0, 1⟩ ⟨0, 0⟩ 2 0 (Real.pi / 2) (Real.pi / 2) Real.pi) =
      ⟨1, 0⟩ ∧
    (⟨2, 0⟩ : Point) ≠ (⟨1, 0⟩ : Point) := by
  have hpos : 0 < (buildOrderedSegments arcCeEnds arcCePrims).length := by
    rw [arcCe_build]
    exact Real.pi_pos
  refine ⟨?_, by rw [arcCe_build]; rfl, rfl, ?_⟩
  · rw [projectIntrinsicToXY_num arcCeEnds arcCePrims hpos 0,
      interpIK_frac 0 _ le_rfl zero_le_one, zero_mul, arcCe_build]
    rw [arcCe_proj_zero]
  · intro h
    have := congrArg Point.x h
    norm_num at this

/-- C5 amended: the boundary identities hold for every assembled path whose
segments all have positive length and are angle-consistent (the stored arc
endpoints agree with the angle parametrization): projection at `0` returns
the first segment's start, projection at fractional `1` returns the last
segment's end, and projection at the absolute coordinate `totalLength`
returns the last segment's end provided `totalLength > 1` (otherwise the
absolute coordinate is read as a fraction). -/
theorem c5_boundary (ends : Option (Point × Point)) (prims : List Prim)
    (s0 sl : Segment)
    (h0 : (buildOrderedSegments ends prims).segments.head? = some s0)
    (hl : (buildOrderedSegments ends prims).segments.getLast? = some sl)
    (hlen : ∀ s ∈ (buildOrderedSegments ends prims).segments, 0 < s.len)
    (hcons : ∀ s ∈ (buildOrderedSegments ends prims).segments, arcConsistent s) :
    projectIntrinsicToXY ends prims (.num 0) = some s0.p1 ∧
    projectIntrinsicToXY ends prims (.num 1) = some sl.p2 ∧
    (1 < (buildOrderedSegments ends prims).length →
      projectIntrinsicToXY ends prims
        (.num ((buildOrderedSegments ends prims).length)) = some sl.p2) := by
  have hwf := build_length ends prims
  have hne : (buildOrderedSegments ends prims).segments ≠ [] := by
    intro h
    rw [h] at h0
    simp at h0
  have hpos : 0 < (buildOrderedSegments ends prims).length := by
    rw [hwf]
    apply List.sum_pos
    · intro x hx
      rcases List.mem_map.mp hx with ⟨s, hs, hx⟩
      rw [← hx]
      exact hlen s hs
    · intro h
      exact hne (List.map_eq_nil_iff.mp h)
  refine ⟨?_, ?_, ?_⟩
  · rw [projectIntrinsicToXY_num ends prims hpos 0,
      interpIK_frac 0 _ le_rfl zero_le_one, zero_mul,
      projectIK_zero _ hwf hlen hcons s0 h0]
  · rw [projectIntrinsicToXY_num ends prims hpos 1,
      interpIK_frac 1 _ zero_le_one le_rfl, one_mul,
      projectIK_total _ hwf hlen hcons sl hl]
  · intro h1
    rw [projectIntrinsicToXY_num ends prims hpos _,
      interpIK_abs _ _ (fun hc => absurd hc.2 (not_le.mpr h1)),
      projectIK_total _ hwf hlen hcons sl hl]

/-- C5 witness: the boundary identities on the concrete single-line edge of
length `5`. -/
theorem c5_witness :
    projectIntrinsicToXY exLineEnds exLinePrims (.num 0) = some ⟨0, 0⟩ ∧
    projectIntrinsicToXY exLineEnds exLinePrims (.num 1) = some ⟨3, 4⟩ ∧
    projectIntrinsicToXY exLineEnds exLinePrims (.num 5) = some ⟨3, 4⟩ := by
  have h5 : (buildOrderedSegments exLineEnds exLinePrims).length = (5 : ℝ) := by
    rw [exLine_build]
  have h := c5_boundary exLineEnds exLinePrims
    (.line ⟨0, 0⟩ ⟨3, 4⟩ 5) (.line ⟨0, 0⟩ ⟨3, 4⟩ 5)
    (by rw [exLine_build]; rfl) (by rw [exLine_build]; rfl)
    (by
      rw [exLine_build]
      intro s hs
      rw [List.mem_singleton] at hs
      rw [hs]
      show (0 : ℝ) < 5
      norm_num)
    (by
      rw [exLine_build]
      intro s hs
      rw [List.mem_singleton] at hs
      rw [hs]
      trivial)
  rw [h5] at h
  exact ⟨h.1, h.2.1, h.2.2 (by norm_num)⟩

/-- C6 confirmed: for an arc primitive without explicit center whose
(orientation-adjusted) parameters are degenerate — absolute radius not
positive, chord not positive, or radius shorter than half the chord — the
resolver returns `none` and the assembler falls back to the straight segment
between the same two adjusted endpoints: it appends the line when the chord
exceeds `EPS` and leaves the chain untouched otherwise; no error is
propagated. -/
theorem c6_degenerate_arc (st : ChainState) (pts : List Point) (radius : ℝ)
    (pA pB : Point) (hA : pts.head? = some pA) (hB : pts.getLast? = some pB)
    (a b : Point) (hab : orientPair st.lastEnd pA pB = (a, b))
    (hdeg : ¬ 0 < |radius| ∨ ¬ 0 < dist a b ∨ |radius| < dist a b / 2) :
    arcFromABR st.lastDir a b |radius| (if 0 ≤ radius then (1 : ℝ) else -1) true =
      none ∧
    pushArcOriented st pts radius none = pushLineOriented st a b ∧
    (EPS < dist a b →
      (pushArcOriented st pts radius none).segs =
        st.segs ++ [.line a b (dist a b)]) ∧
    (¬ EPS < dist a b → pushArcOriented st pts radius none = st) := by
  have hnone : arcFromABR st.lastDir a b |radius|
      (if 0 ≤ radius then (1 : ℝ) else -1) true = none :=
    arcFromABR_degenerate _ _ _ _ _ _ hdeg
  have hP : orientPolyline st.lastEnd [a, b] = [a, b] := by
    cases he : st.lastEnd with
    | none => rfl
    | some e =>
      have h := orientPair_post e pA pB a b (by rw [← he]; exact hab)
      exact orientPolyline_pair e a b h.1 h.2
  have hidem : orientPair st.lastEnd a b = (a, b) := by
    cases he : st.lastEnd with
    | none => rfl
    | some e =>
      have h := orientPair_post e pA pB a b (by rw [← he]; exact hab)
      exact orientPair_idem e a b h.1 h.2
  have hmain : pushArcOriented st pts radius none = pushLineOriented st a b := by
    unfold pushArcOriented
    rw [hA, hB]
    simp only
    rw [hab]
    simp only
    rw [hnone]
    show pushPolylineOriented st [a, b] = pushLineOriented st a b
    exact pushPoly_two st a b hP
  refine ⟨hnone, hmain, ?_, ?_⟩
  · intro hgt
    rw [hmain]
    unfold pushLineOriented
    rw [hidem]
    simp only
    rw [if_neg (not_le.mpr hgt)]
  · intro hle
    rw [hmain]
    unfold pushLineOriented
    rw [hidem]
    simp only
    rw [if_pos (not_lt.mp hle)]

/-- C6 witness: arc primitive from `(0,0)` to `(5,0)` with radius `2` — half
the chord is `2.5 > 2`, so the resolver fails and a straight line of length
`5` is appended. -/
theorem c6_witness :
    pushArcOriented ⟨[], none, none⟩ [⟨0, 0⟩, ⟨5, 0⟩] 2 none =
      pushLineOriented ⟨[], none, none⟩ ⟨0, 0⟩ ⟨5, 0⟩ ∧
    (pushArcOriented ⟨[], none, none⟩ [⟨0, 0⟩, ⟨5, 0⟩] 2 none).segs =
      [] ++ [.line ⟨0, 0⟩ ⟨5, 0⟩ (dist ⟨0, 0⟩ ⟨5, 0⟩)] := by
  have hd : dist (⟨0, 0⟩ : Point) ⟨5, 0⟩ = 5 := distEval (by norm_num) (by norm_num)
  have h := c6_degenerate_arc ⟨[], none, none⟩ [⟨0, 0⟩, ⟨5, 0⟩] 2 ⟨0, 0⟩ ⟨5, 0⟩
    rfl rfl ⟨0, 0⟩ ⟨5, 0⟩ rfl (Or.inr (Or.inr (by rw [hd]; norm_num)))
  exact ⟨h.2.1, h.2.2.1 (by rw [hd]; norm_num [EPS])⟩

/-- C9 counterexample: on the line-plus-quarter-arc path with
`maxChordLength = 3`, the arc's subdivision count is `n = 2`, so "exactly
`n` points per arc are emitted" would make the polyline `2 + 2 = 4` points
long; the deduplicating push merges the shared joint, and the sampler
returns only `3` points. -/
theorem c9_counterexample :
    buildOrderedSegments sampleEnds samplePrims =
      ⟨1 + Real.pi / 2,
        [.line ⟨0, 0⟩ ⟨1, 0⟩ 1,
         .arc ⟨1, 0⟩ ⟨0, 1⟩ ⟨0, 0⟩ 1 0 (Real.pi / 2) (Real.pi / 2) (Real.pi / 2)]⟩ ∧
    sampleSegmentsToPolyline (buildOrderedSegments sampleEnds samplePrims) 3 =
      [⟨0, 0⟩, ⟨1, 0⟩, ⟨0, 1⟩] ∧
    arcSampleCount (Real.pi / 2) 1 3 = 2 ∧
    ([(⟨0, 0⟩ : Point), ⟨1, 0⟩, ⟨0, 1⟩].length ≠ 2 + 2) := by
  refine ⟨sample_build, ?_, arcSampleCount_quarter, by simp⟩
  rw [sample_build]
  exact sample_polyline_eval

/-- C9 amended: the sampled polyline never contains two equal consecutive
points; each arc *contributes* exactly
`n = max(2, ceil(|sweep| * r / max(1e-6, maxChordLength)) + 1)` evenly
angle-spaced raw points before deduplication (note the divisor is clamped
below by `1e-6`, so the formula also covers `maxChordLength ≤ 0`); and for
a path of angle-consistent segments the result starts at the first
segment's start and ends at the last segment's end.  Fewer than the raw
count can survive in the output whenever a contributed point coincides with
the point before it. -/
theorem c9_sampler (packed : Packed) (mc : ℝ) :
    List.Chain' (· ≠ ·) (sampleSegmentsToPolyline packed mc) ∧
    (∀ (p1 p2 c : Point) (r a1 a2 sw len : ℝ),
      (sampleRaw mc (.arc p1 p2 c r a1 a2 sw len)).length =
        (max 2 (⌈|sw| * r / max 1e-6 mc⌉ + 1)).toNat) ∧
    (∀ s0 sl : Segment,
      packed.segments.head? = some s0 →
      packed.segments.getLast? = some sl →
      (∀ s ∈ packed.segments, arcConsistent s) →
      (sampleSegmentsToPolyline packed mc).head? = some s0.p1 ∧
      (sampleSegmentsToPolyline packed mc).getLast? = some sl.p2) := by
  refine ⟨sample_nodup packed mc, ?_, ?_⟩
  · intro p1 p2 c r a1 a2 sw len
    simp only [sampleRaw, List.length_map, List.length_range]
    rfl
  · intro s0 sl h0 hl hcons
    exact ⟨sample_head packed mc s0 h0 hcons,
      sample_getLast packed mc sl hl hcons⟩

/-- C9 witness: endpoint coverage on the concrete line-plus-quarter-arc
path sampled with `maxChordLength = 3`. -/
theorem c9_witness :
    (sampleSegmentsToPolyline
      ⟨1 + Real.pi / 2,
        [.line ⟨0, 0⟩ ⟨1, 0⟩ 1,
         .arc ⟨1, 0⟩ ⟨0, 1⟩ ⟨0, 0⟩ 1 0 (Real.pi / 2) (Real.pi / 2) (Real.pi / 2)]⟩
      3).head? = some (⟨0, 0⟩ : Point) ∧
    (sampleSegmentsToPolyline
      ⟨1 + Real.pi / 2,
        [.line ⟨0, 0⟩ ⟨1, 0⟩ 1,
         .arc ⟨1, 0⟩ ⟨0, 1⟩ ⟨0, 0⟩ 1 0 (Real.pi / 2) (Real.pi / 2) (Real.pi / 2)]⟩
      3).getLast? = some (⟨0, 1⟩ : Point) := by
  have hcons : ∀ s ∈ ([.line ⟨0, 0⟩ ⟨1, 0⟩ 1,
      .arc ⟨1, 0⟩ ⟨0, 1⟩ ⟨0, 0⟩ 1 0 (Real.pi / 2) (Real.pi / 2)
        (Real.pi / 2)] : List Segment), arcConsistent s := by
    intro s hs
    rw [List.mem_cons, List.mem_singleton] at hs
    rcases hs with h | h <;> rw [h]
    · trivial
    · refine ⟨?_, ?_⟩ <;> apply Point.ext' <;>
        norm_num [Real.cos_pi_div_two, Real.sin_pi_div_two]
  have h := (c9_sampler
    ⟨1 + Real.pi / 2,
      [.line ⟨0, 0⟩ ⟨1, 0⟩ 1,
       .arc ⟨1, 0⟩ ⟨0, 1⟩ ⟨0, 0⟩ 1 0 (Real.pi / 2) (Real.pi / 2) (Real.pi / 2)]⟩
    3).2.2
    (.line ⟨0, 0⟩ ⟨1, 0⟩ 1)
    (.arc ⟨1, 0⟩ ⟨0, 1⟩ ⟨0, 0⟩ 1 0 (Real.pi / 2) (Real.pi / 2) (Real.pi / 2))
    rfl rfl hcons
  exact h

end GraphViz
